import Mathlib

/-!
# log4cpp `PropertyConfiguratorImpl`

A shallow embedding of `src/PropertyConfiguratorImpl.cpp` and theorems about it.

* C++ strings are Lean strings; positions count characters and `none` stands for
  `std::string::npos`.
* `std::map` is a key-ordered association list.
* A `throw ConfigureFailure(msg)` is the outcome `failed msg s`, where `s` is the state the
  throw leaves behind.
* Code that lives outside the file (the priority parser, `requiresLayout`, `atoi`, the default
  pattern of `PatternLayout`, the `WIN32` build flag) is collected in `Collaborators` and
  every definition is parametric in it.
-/

namespace log4cpp

/-! ## `std::string` -/

namespace StdString

/-- The position of the first `c` in a character list. -/
def findCharIn (c : Char) : List Char → Option Nat
  | [] => none
  | d :: ds => if d = c then some 0 else (findCharIn c ds).map (· + 1)

/-- The call `s.find(c)` for a character `c`. -/
def find (s : String) (c : Char) : Option Nat :=
  findCharIn c s.data

/-- The position of the first occurrence of `pat` in a character list. -/
def findStrIn (pat : List Char) : List Char → Option Nat
  | [] => if pat = [] then some 0 else none
  | d :: ds =>
    if pat.isPrefixOf (d :: ds) then some 0 else (findStrIn pat ds).map (· + 1)

/-- The call `s.find(pat)` for a string `pat`. -/
def findStr (s pat : String) : Option Nat :=
  findStrIn pat.data s.data

/-- The position of the last character of a list that belongs to `chars`. -/
def findLastOfIn (chars : List Char) : List Char → Option Nat
  | [] => none
  | d :: ds =>
    match findLastOfIn chars ds with
    | some i => some (i + 1)
    | none => if d ∈ chars then some 0 else none

/-- The call `s.find_last_of(chars)`. -/
def find_last_of (s chars : String) : Option Nat :=
  findLastOfIn chars.data s.data

/-- The call `s.substr(pos, len)`. -/
def substr (s : String) (pos len : Nat) : String :=
  ⟨(s.data.drop pos).take len⟩

/-- The call `s.substr(pos)`. -/
def substrFrom (s : String) (pos : Nat) : String :=
  ⟨s.data.drop pos⟩

/-- The value `std::string::npos` of a 64-bit `size_type`. -/
def npos : Nat := 2 ^ 64 - 1

/-- A `size_type` used as a condition: every value but zero, `npos` included, is true. -/
def sizeToBool : Option Nat → Bool
  | some 0 => false
  | _ => true

/-- A `bool` passed where a `char` is expected. -/
def boolToChar (b : Bool) : Char :=
  if b then Char.ofNat 1 else Char.ofNat 0

/-- Lexicographic comparison of character lists. -/
def ltChars : List Char → List Char → Bool
  | _, [] => false
  | [], _ :: _ => true
  | a :: as, b :: bs =>
    if a.toNat < b.toNat then true
    else if b.toNat < a.toNat then false
    else ltChars as bs

/-- The comparison `a < b` of two strings, the key order of `std::map<std::string, _>`. -/
def lt (a b : String) : Bool :=
  ltChars a.data b.data

end StdString

/-! ## `std::map<std::string, V>` -/

/-- A map with string keys, its entries listed in iteration order. -/
abbrev StdMap (V : Type) := List (String × V)

namespace StdMap

variable {V : Type}

/-- The call `m.find(key)`: the mapped value, `none` for `m.end()`. -/
def find : StdMap V → String → Option V
  | [], _ => none
  | (k, v) :: rest, key => if k = key then some v else find rest key

/-- The assignment `m[key] = value`. -/
def set : StdMap V → String → V → StdMap V
  | [], key, value => [(key, value)]
  | (k, v) :: rest, key, value =>
    if StdString.lt key k then (key, value) :: (k, v) :: rest
    else if k = key then (key, value) :: rest
    else (k, v) :: set rest key value

/-- The call `m.lower_bound(key)`: the entries from the first key not less than `key` on. -/
def lower_bound : StdMap V → String → StdMap V
  | [], _ => []
  | (k, v) :: rest, key =>
    if StdString.lt k key then lower_bound rest key else (k, v) :: rest

/-- The keys of a map are strictly increasing, the invariant of `std::map`. -/
def Ordered (m : StdMap V) : Prop :=
  List.Chain' (fun a b => StdString.lt a.1 b.1 = true) m

instance (m : StdMap V) : Decidable (Ordered m) := by
  unfold Ordered
  infer_instance

end StdMap

/-! ## The objects the configurator builds -/

/-- A layout object. -/
inductive Layout
  | BasicLayout
  | SimpleLayout
  | PatternLayout (conversionPattern : String)
  deriving DecidableEq, Repr

/-- The appender classes of the factory. -/
inductive AppenderKind
  | OstreamAppender
  | FileAppender
  | RemoteSyslogAppender
  | Win32DebugAppender
  deriving DecidableEq, Repr

/-- A constructor call `new K(...)` of the factory, with its arguments. -/
inductive AppenderCtor
  | OstreamAppender (name : String)
  | FileAppender (name fileName : String)
  | RemoteSyslogAppender (name syslogName syslogHost : String) (facility portNumber : Int)
  | Win32DebugAppender (name : String)
  deriving DecidableEq, Repr

/-- The class of a constructed appender. -/
def AppenderCtor.kind : AppenderCtor → AppenderKind
  | .OstreamAppender _ => .OstreamAppender
  | .FileAppender _ _ => .FileAppender
  | .RemoteSyslogAppender _ _ _ _ _ => .RemoteSyslogAppender
  | .Win32DebugAppender _ => .Win32DebugAppender

/-- The name an appender was constructed with. -/
def AppenderCtor.name : AppenderCtor → String
  | .OstreamAppender n => n
  | .FileAppender n _ => n
  | .RemoteSyslogAppender n _ _ _ _ => n
  | .Win32DebugAppender n => n

/-- An appender object: how it was constructed and the layout set on it, if any. -/
structure Appender where
  ctor : AppenderCtor
  layout : Option Layout
  deriving DecidableEq, Repr

/-- The name of an appender. -/
def Appender.name (a : Appender) : String := a.ctor.name

/-- The code the configurator calls but does not define. -/
structure Collaborators where
  /-- The call `Priority::getPriorityValue(name)`; `none` is `std::invalid_argument`. -/
  getPriorityValue : String → Option Int
  /-- The virtual call `appender->requiresLayout()`, by class. -/
  requiresLayout : AppenderKind → Bool
  /-- The call `std::atoi`, used by `Properties::getInt`. -/
  atoi : String → Int
  /-- The pattern a freshly constructed `PatternLayout` holds. -/
  defaultConversionPattern : String
  /-- Whether the build defines `WIN32`. -/
  WIN32 : Bool

/-! ## `Properties` -/

/-- The property store, a `std::map<std::string, std::string>`. -/
abbrev Properties := StdMap String

/-- Modelled from the spec: `Properties::getString` (`Properties.cpp` is not part of the
sources), the value of the key, or the default when the key is absent. -/
def Properties.getString (p : Properties) (property defaultValue : String) : String :=
  match StdMap.find p property with
  | some v => v
  | none => defaultValue

/-- Modelled from the spec: `Properties::getInt` (`Properties.cpp` is not part of the
sources), the value of the key read as a number, or the default when the key is absent. -/
def Properties.getInt (env : Collaborators) (p : Properties) (property : String)
    (defaultValue : Int) : Int :=
  match StdMap.find p property with
  | some v => env.atoi v
  | none => defaultValue

/-! ## `StringUtil` -/

namespace StringUtil

/-- The segments of a character list between the occurrences of `delimiter`. -/
def splitChars (delimiter : Char) : List Char → List (List Char)
  | [] => [[]]
  | c :: cs =>
    if c = delimiter then [] :: splitChars delimiter cs
    else
      match splitChars delimiter cs with
      | [] => [[c]]
      | seg :: segs => (c :: seg) :: segs

/-- Modelled from the spec: `StringUtil::split(v, s, delimiter)` (`StringUtil.cpp` is not part
of the sources), which fills `v` with the pieces of `s` between the delimiters, in order; a
string without the delimiter is one piece. -/
def split (s : String) (delimiter : Char) : List String :=
  (splitChars delimiter s.data).map String.mk

/-- The characters `StringUtil::trim` removes. -/
def isWhitespace (c : Char) : Bool :=
  c = ' ' || c = '\t' || c = '\r' || c = '\n'

/-- Modelled from the spec: `StringUtil::trim(s)` (`StringUtil.cpp` is not part of the
sources), `s` without its leading and trailing whitespace. -/
def trim (s : String) : String :=
  ⟨((s.data.dropWhile isWhitespace).reverse.dropWhile isWhitespace).reverse⟩

end StringUtil

/-! ## Categories -/

/-- The category a configuration entry addresses: `Category::getRoot()` or
`Category::getInstance(name)`. -/
inductive CategoryRef
  | getRoot
  | getInstance (name : String)
  deriving DecidableEq, Repr

/-- What the configurator sets on a category. -/
structure CategoryNode where
  priority : Int
  appenders : List Appender
  deriving DecidableEq, Repr

/-- The category registry: the state of every category. -/
abbrev Hierarchy := CategoryRef → CategoryNode

namespace Hierarchy

/-- Modelled from the spec: `category->removeAllAppenders()` (`Category.cpp` is not part of
the sources). -/
def removeAllAppenders (h : Hierarchy) (c : CategoryRef) : Hierarchy :=
  fun d => if d = c then { h d with appenders := [] } else h d

/-- Modelled from the spec: `category->setPriority(value)` (`Category.cpp` is not part of the
sources). -/
def setPriority (h : Hierarchy) (c : CategoryRef) (value : Int) : Hierarchy :=
  fun d => if d = c then { h d with priority := value } else h d

/-- Modelled from the spec: `category->addAppender(appender)` (`Category.cpp` is not part of
the sources); the appenders of a category form a set, listed in the order they were added. -/
def addAppender (h : Hierarchy) (c : CategoryRef) (a : Appender) : Hierarchy :=
  fun d =>
    if d = c then
      { h d with appenders := if a ∈ (h d).appenders then (h d).appenders
                              else (h d).appenders ++ [a] }
    else h d

end Hierarchy

/-- The result of a member function that may throw `ConfigureFailure`: the state it returns
with, or the message thrown and the state at the throw. -/
inductive Outcome (σ : Type)
  | ok (state : σ)
  | failed (message : String) (state : σ)

/-- The message thrown, if any. -/
def Outcome.failure {σ : Type} : Outcome σ → Option String
  | .ok _ => none
  | .failed message _ => some message

/-- The state the call leaves, by return or by throw. -/
def Outcome.state {σ : Type} : Outcome σ → σ
  | .ok s => s
  | .failed _ s => s

/-- The registry `_allAppenders`. -/
abbrev AppenderMap := StdMap Appender

/-! ## `PropertyConfiguratorImpl` -/

open StdString in
/-- The last dot-separated piece of a type tag, as both factories compute it:
`(length == npos) ? value : value.substr(length + 1)` with `length = value.find_last_of(".")`. -/
def typeName (value : String) : String :=
  match find_last_of value "." with
  | none => value
  | some length => substrFrom value (length + 1)

/-- The function `PropertyConfiguratorImpl::setLayout`: the appender with its new layout, or
the message of the `ConfigureFailure`. -/
def setLayout (env : Collaborators) (properties : Properties) (appender : Appender)
    (appenderName : String) : Except String Appender :=
  match StdMap.find properties ("appender." ++ appenderName ++ ".layout") with
  | none => .error ("Missing layout property for appender '" ++ appenderName ++ "'")
  | some value =>
    let layoutType := typeName value
    if layoutType = "BasicLayout" then
      .ok { appender with layout := some Layout.BasicLayout }
    else if layoutType = "SimpleLayout" then
      .ok { appender with layout := some Layout.SimpleLayout }
    else if layoutType = "PatternLayout" then
      match StdMap.find properties
          ("appender." ++ appenderName ++ ".layout.ConversionPattern") with
      | none =>
        .ok { appender with layout := some (Layout.PatternLayout env.defaultConversionPattern) }
      | some pattern =>
        .ok { appender with layout := some (Layout.PatternLayout pattern) }
    else
      .error ("Unknown layout type '" ++ layoutType ++ "' for appender '" ++ appenderName ++ "'")

/-- The dispatch of `instantiateAppender` on the type name: the constructor call made, or
`none` for the final `else`. The `IdsaAppender` branch is left out (builds without
`LOG4CPP_HAVE_LIBIDSA`). -/
def construct (env : Collaborators) (properties : Properties) (appenderName appenderType : String) :
    Option AppenderCtor :=
  if appenderType = "ConsoleAppender" then
    some (.OstreamAppender appenderName)
  else if appenderType = "FileAppender" then
    some (.FileAppender appenderName
      (properties.getString ("appender." ++ appenderName ++ ".fileName") "foobar"))
  else if appenderType = "SyslogAppender" then
    some (.RemoteSyslogAppender appenderName
      (properties.getString ("appender." ++ appenderName ++ ".syslogName") "syslog")
      (properties.getString ("appender." ++ appenderName ++ ".syslogHost") "localhost")
      (properties.getInt env ("appender." ++ appenderName ++ ".facility") (-1))
      (properties.getInt env ("appender." ++ appenderName ++ ".portNumber") (-1)))
  else if env.WIN32 && appenderType = "Win32DebugAppender" then
    some (.Win32DebugAppender appenderName)
  else
    none

/-- The function `PropertyConfiguratorImpl::instantiateAppender`: the appender built, or the
message of the `ConfigureFailure`. -/
def instantiateAppender (env : Collaborators) (properties : Properties) (appenderName : String) :
    Except String Appender :=
  match StdMap.find properties ("appender." ++ appenderName) with
  | none => .error ("Appender '" ++ appenderName ++ "' not defined")
  | some value =>
    let appenderType := typeName value
    match construct env properties appenderName appenderType with
    | none =>
      .error ("Appender '" ++ appenderName ++ "' has unknown type '" ++ appenderType ++ "'")
    | some ctor =>
      let appender : Appender := { ctor := ctor, layout := none }
      if env.requiresLayout ctor.kind then
        setLayout env properties appender appenderName
      else
        .ok appender

open StdString in
/-- The loop of `PropertyConfiguratorImpl::instantiateAllAppenders` over the entries from
`lower_bound("appender.")` on, with the local `currentAppender` and the registry. The entry
`_allAppenders[currentAppender]` is written once `instantiateAppender` has returned. -/
def instantiateLoop (env : Collaborators) (properties : Properties) :
    List (String × String) → String → AppenderMap → Outcome AppenderMap
  | [], _, allAppenders => .ok allAppenders
  | (key, _) :: rest, currentAppender, allAppenders =>
    match find key '.' with
    | none => instantiateLoop env properties rest currentAppender allAppenders
    | some dotIndex =>
      if substr key 0 dotIndex ≠ "appender" then
        .ok allAppenders
      else
        let appenderName := substrFrom key (dotIndex + 1)
        if appenderName = currentAppender then
          instantiateLoop env properties rest currentAppender allAppenders
        else
          if sizeToBool (find appenderName (boolToChar (decide ('.'.toNat ≠ npos)))) then
            .failed ("partial appender definition : " ++ key) allAppenders
          else
            match instantiateAppender env properties appenderName with
            | .error message => .failed message allAppenders
            | .ok appender =>
              instantiateLoop env properties rest appenderName
                (StdMap.set allAppenders appenderName appender)

/-- The function `PropertyConfiguratorImpl::instantiateAllAppenders`. -/
def instantiateAllAppenders (env : Collaborators) (properties : Properties)
    (allAppenders : AppenderMap) : Outcome AppenderMap :=
  instantiateLoop env properties (StdMap.lower_bound properties "appender.") "" allAppenders

open StdString in
/-- The function `PropertyConfiguratorImpl::getCategories`: the list after the call. -/
def getCategories (properties : Properties) (catlist : List String) : List String :=
  let rec scan : List (String × String) → List String → List String
    | [], catlist => catlist
    | (key, _) :: rest, catlist =>
      match findStr key "category." with
      | some length => scan rest (catlist ++ [substrFrom key (length + "category.".length)])
      | none => scan rest catlist
  scan properties (catlist ++ ["rootCategory"])

open StdString in
/-- The `do ... while` loop of `addAppenders` that cuts the value at its commas: the tokens
pushed and the final `rightString`. The first argument bounds the number of rounds; every
round shortens `rightString`, so its length is enough. -/
def storeTokens : Nat → String → Nat → List String → List String × String
  | 0, rightString, _, tokens => (tokens, rightString)
  | fuel + 1, rightString, length, tokens =>
    let leftString := substr rightString 0 length
    let rightString := substrFrom rightString (length + 1)
    let tokens := tokens ++ [leftString]
    match findStr rightString "," with
    | some length => storeTokens fuel rightString length tokens
    | none => (tokens, rightString)

/-- The inner loop of `addAppenders` over the pieces after the first: each is looked up in
the registry and added to the category. -/
def attachAppenders (allAppenders : AppenderMap) (categoryName : String) (category : CategoryRef) :
    List String → Hierarchy → Outcome Hierarchy
  | [], hierarchy => .ok hierarchy
  | i :: rest, hierarchy =>
    let appenderName := StringUtil.trim i
    match StdMap.find allAppenders appenderName with
    | none =>
      .failed ("Appender '" ++ appenderName ++ "' not found for category '" ++ categoryName ++ "'")
        hierarchy
    | some appender =>
      attachAppenders allAppenders categoryName category rest
        (hierarchy.addAppender category appender)

/-- The outer loop of `addAppenders` over the tokens. -/
def applyTokens (env : Collaborators) (allAppenders : AppenderMap) (categoryName : String)
    (category : CategoryRef) : List String → Hierarchy → Outcome Hierarchy
  | [], hierarchy => .ok hierarchy
  | token :: rest, hierarchy =>
    match StringUtil.split token ',' with
    | [] => applyTokens env allAppenders categoryName category rest hierarchy
    | first :: others =>
      let priorityName := StringUtil.trim first
      match env.getPriorityValue priorityName with
      | none =>
        .failed ("unknown priority '" ++ priorityName ++ "' for category '" ++ categoryName ++ "'")
          hierarchy
      | some value =>
        match attachAppenders allAppenders categoryName category others
            (hierarchy.setPriority category value) with
        | .failed message hierarchy => .failed message hierarchy
        | .ok hierarchy => applyTokens env allAppenders categoryName category rest hierarchy

/-- The key `addAppenders` reads for a category name. -/
def tempCatName (categoryName : String) : String :=
  if categoryName = "rootCategory" then categoryName else "category." ++ categoryName

/-- The category `addAppenders` configures for a category name. -/
def categoryOf (categoryName : String) : CategoryRef :=
  if categoryName = "rootCategory" then .getRoot else .getInstance categoryName

open StdString in
/-- The function `PropertyConfiguratorImpl::addAppenders`. -/
def addAppenders (env : Collaborators) (properties : Properties) (allAppenders : AppenderMap)
    (hierarchy : Hierarchy) (categoryName : String) : Outcome Hierarchy :=
  match StdMap.find properties (tempCatName categoryName) with
  | none => .failed ("Unable to find category: " ++ tempCatName categoryName) hierarchy
  | some value =>
    let category := categoryOf categoryName
    match findStr value "," with
    | none => .failed ("Invalid configuration file: see " ++ tempCatName categoryName) hierarchy
    | some length =>
      let (tokens, rightString) := storeTokens value.length value length []
      let tokens := if rightString.length > 0 then tokens ++ [rightString] else tokens
      applyTokens env allAppenders categoryName category tokens
        (hierarchy.removeAllAppenders category)

/-- The members a configuration pass changes: the registry and the categories. -/
structure ConfigState where
  allAppenders : AppenderMap
  hierarchy : Hierarchy

/-- The loop of `doConfigure` over the category list. -/
def addAllAppenders (env : Collaborators) (properties : Properties) (allAppenders : AppenderMap) :
    List String → Hierarchy → Outcome Hierarchy
  | [], hierarchy => .ok hierarchy
  | categoryName :: rest, hierarchy =>
    match addAppenders env properties allAppenders hierarchy categoryName with
    | .failed message hierarchy => .failed message hierarchy
    | .ok hierarchy => addAllAppenders env properties allAppenders rest hierarchy

/-- The function `PropertyConfiguratorImpl::doConfigure(std::istream&)`, from the store that
`_properties.load(in)` leaves. -/
def doConfigure (env : Collaborators) (properties : Properties) (state : ConfigState) :
    Outcome ConfigState :=
  match instantiateAllAppenders env properties state.allAppenders with
  | .failed message allAppenders =>
    .failed message { state with allAppenders := allAppenders }
  | .ok allAppenders =>
    match addAllAppenders env properties allAppenders (getCategories properties [])
        state.hierarchy with
    | .failed message hierarchy =>
      .failed message { allAppenders := allAppenders, hierarchy := hierarchy }
    | .ok hierarchy => .ok { allAppenders := allAppenders, hierarchy := hierarchy }

/-! ## Sample collaborators, to run the configurator on concrete stores -/

/-- A priority parser that knows the level names of the library and nothing else. -/
def samplePriority (name : String) : Option Int :=
  if name = "FATAL" then some 0
  else if name = "ALERT" then some 100
  else if name = "CRIT" then some 200
  else if name = "ERROR" then some 300
  else if name = "WARN" then some 400
  else if name = "NOTICE" then some 500
  else if name = "INFO" then some 600
  else if name = "DEBUG" then some 700
  else if name = "NOTSET" then some 800
  else none

/-- Collaborators in which every appender class but the syslog one takes a layout. -/
def sampleEnv : Collaborators where
  getPriorityValue := samplePriority
  requiresLayout := fun k => decide (k ≠ AppenderKind.RemoteSyslogAppender)
  atoi := fun _ => 0
  defaultConversionPattern := "%m%n"
  WIN32 := false

/-- A category registry in which nothing is configured. -/
def emptyHierarchy : Hierarchy :=
  fun _ => { priority := 800, appenders := [] }

/-- A category registry in which every category holds the appender `A`. -/
def boundHierarchy : Hierarchy :=
  fun _ => { priority := 800, appenders := [⟨.OstreamAppender "A", none⟩] }

/-- The registry `boundHierarchy` once the root category is cleared and set to `WARN`. -/
def reboundHierarchy : Hierarchy :=
  Hierarchy.setPriority (Hierarchy.removeAllAppenders boundHierarchy .getRoot) .getRoot 400

/-! ## Notions of the specification -/

/-- The tokens of a category value: its pieces between the commas, without the last piece
when that is empty. -/
def cutAtCommas (value : String) : List String :=
  let pieces := StringUtil.splitChars ',' value.data
  (if pieces.getLastD [] = [] then pieces.dropLast else pieces).map String.mk

/-- An appender is named in a category value: one of the comma-separated items of the value
is, once trimmed, the name of the appender. -/
def NamedIn (value : String) (a : Appender) : Prop :=
  ∃ item ∈ StringUtil.split value ',', StringUtil.trim item = a.name

/-- The name `getCategories` derives from a key: the text after the first `category.`, for
a key that contains it. -/
def derivedName (key : String) : Option String :=
  (StdString.findStr key "category.").map
    fun length => StdString.substrFrom key (length + "category.".length)

/-- A key contains the text `category.` somewhere. -/
def HasCategoryDot (key : String) : Prop :=
  "category.".data <:+: key.data

instance (key : String) : Decidable (HasCategoryDot key) := by
  unfold HasCategoryDot
  infer_instance

/-- The text `name` is what follows the first occurrence of `category.` in `key`: the key
is some `pre`, then `category.`, then `name`, and `category.` occurs at no earlier place. -/
def NameAfterFirst (key name : String) : Prop :=
  ∃ pre : List Char, key.data = pre ++ "category.".data ++ name.data ∧
    ∀ pre2 post2 : List Char, key.data = pre2 ++ "category.".data ++ post2 →
      pre.length ≤ pre2.length

/-- The text `segment` is the last dot-separated segment of `value`: it holds no dot, and
`value` is `segment` itself or ends in a dot followed by `segment`. -/
def LastSegment (value segment : String) : Prop :=
  '.' ∉ segment.data ∧ (value = segment ∨ ∃ p : String, value = p ++ "." ++ segment)

/-- The appender kind a type name stands for: console, file and syslog, and the debug
appender of builds with `WIN32`. -/
def kindNamed (env : Collaborators) (segment : String) : Option AppenderKind :=
  if segment = "ConsoleAppender" then some .OstreamAppender
  else if segment = "FileAppender" then some .FileAppender
  else if segment = "SyslogAppender" then some .RemoteSyslogAppender
  else if env.WIN32 = true ∧ segment = "Win32DebugAppender" then some .Win32DebugAppender
  else none

/-- The key `key` is a layout key of the appender `appenderName`: it begins with
`appender.<appenderName>.layout`. -/
def IsLayoutKey (appenderName key : String) : Prop :=
  ("appender." ++ appenderName ++ ".layout").data <+: key.data

instance (appenderName key : String) : Decidable (IsLayoutKey appenderName key) := by
  unfold IsLayoutKey
  infer_instance

/-! ## Lemmas on strings -/

namespace StdString

theorem findCharIn_none {c : Char} {s : List Char} : findCharIn c s = none ↔ c ∉ s := by
  induction s with
  | nil => simp [findCharIn]
  | cons d ds ih =>
    by_cases h : d = c
    · simp [findCharIn, h]
    · have h2 : ¬ c = d := fun e => h e.symm
      simp [findCharIn, h, h2, ih]

theorem findCharIn_some {c : Char} {s : List Char} {i : Nat} (h : findCharIn c s = some i) :
    c ∉ s.take i ∧ s = s.take i ++ c :: s.drop (i + 1) := by
  induction s generalizing i with
  | nil => simp [findCharIn] at h
  | cons d ds ih =>
    by_cases hd : d = c
    · simp [findCharIn, hd] at h
      subst h
      simp [hd]
    · simp only [findCharIn, hd, if_false, Option.map_eq_some'] at h
      obtain ⟨j, hj, rfl⟩ := h
      obtain ⟨h1, h2⟩ := ih hj
      have hd2 : ¬ c = d := fun e => hd e.symm
      refine ⟨?_, ?_⟩
      · simpa [hd2] using h1
      · simpa using h2

theorem findCharIn_append {c : Char} {pre post : List Char} (h : c ∉ pre) :
    findCharIn c (pre ++ c :: post) = some pre.length := by
  induction pre with
  | nil => simp [findCharIn]
  | cons d ds ih =>
    have hd : ¬ d = c := fun e => h (by simp [e])
    have hds : c ∉ ds := fun e => h (by simp [e])
    simp [findCharIn, hd, ih hds]

theorem findStrIn_singleton (c : Char) (s : List Char) : findStrIn [c] s = findCharIn c s := by
  induction s with
  | nil => simp [findStrIn, findCharIn]
  | cons d ds ih =>
    by_cases h : d = c
    · simp [findStrIn, findCharIn, h, List.isPrefixOf]
    · have h2 : ¬ c = d := fun e => h e.symm
      simp [findStrIn, findCharIn, h, h2, ih, List.isPrefixOf]

theorem findStrIn_none {pat s : List Char} (h : findStrIn pat s = none) : ¬ pat <:+: s := by
  induction s with
  | nil =>
    by_cases hp : pat = []
    · simp [findStrIn, hp] at h
    · simpa using hp
  | cons d ds ih =>
    by_cases hp : pat.isPrefixOf (d :: ds) = true
    · simp [findStrIn, hp] at h
    · simp only [findStrIn, hp, Bool.false_eq_true, if_false, Option.map_eq_none'] at h
      rw [List.infix_cons_iff]
      rintro (h1 | h1)
      · exact hp (List.isPrefixOf_iff_prefix.mpr h1)
      · exact ih h h1

theorem findStrIn_some {pat s : List Char} {i : Nat} (h : findStrIn pat s = some i) :
    s = s.take i ++ pat ++ s.drop (i + pat.length) ∧
      ∀ pre2 post2 : List Char, s = pre2 ++ pat ++ post2 → i ≤ pre2.length := by
  induction s generalizing i with
  | nil =>
    by_cases hp : pat = []
    · simp only [findStrIn, hp, if_true, Option.some.injEq] at h
      subst h
      simp [hp]
    · simp [findStrIn, hp] at h
  | cons d ds ih =>
    by_cases hp : pat.isPrefixOf (d :: ds) = true
    · simp only [findStrIn, hp, if_true, Option.some.injEq] at h
      subst h
      obtain ⟨t, ht⟩ := List.isPrefixOf_iff_prefix.mp hp
      refine ⟨?_, fun _ _ _ => Nat.zero_le _⟩
      rw [← ht]
      simp
    · simp only [findStrIn, hp, Bool.false_eq_true, if_false, Option.map_eq_some'] at h
      obtain ⟨j, hj, rfl⟩ := h
      obtain ⟨h1, h2⟩ := ih hj
      refine ⟨?_, ?_⟩
      · have : j + 1 + pat.length = (j + pat.length) + 1 := by omega
        rw [this]
        simp only [List.take_succ_cons, List.drop_succ_cons, List.cons_append]
        exact congrArg (List.cons d) h1
      · intro pre2 post2 e
        cases pre2 with
        | nil =>
          exfalso
          apply hp
          rw [List.isPrefixOf_iff_prefix]
          exact ⟨post2, by simpa using e.symm⟩
        | cons c cs =>
          simp only [List.cons_append, List.cons.injEq] at e
          have := h2 cs post2 e.2
          simp only [List.length_cons]
          omega

theorem findLastOfIn_none {chars s : List Char} (h : ∀ c ∈ s, c ∉ chars) :
    findLastOfIn chars s = none := by
  induction s with
  | nil => rfl
  | cons d ds ih =>
    have hd : d ∉ chars := h d (by simp)
    simp [findLastOfIn, ih (fun c hc => h c (by simp [hc])), hd]

theorem findLastOfIn_append {chars : List Char} (p : List Char) {c : Char} {t : List Char}
    (hc : c ∈ chars) (h : ∀ x ∈ t, x ∉ chars) :
    findLastOfIn chars (p ++ c :: t) = some p.length := by
  induction p with
  | nil => simp [findLastOfIn, findLastOfIn_none h, hc]
  | cons d ds ih => simp [findLastOfIn, ih]

theorem findLastOfIn_eq_none {chars s : List Char} (h : findLastOfIn chars s = none) :
    ∀ x ∈ s, x ∉ chars := by
  induction s with
  | nil => intro x hx; cases hx
  | cons d ds ih =>
    cases hf : findLastOfIn chars ds with
    | some j => simp [findLastOfIn, hf] at h
    | none =>
      simp only [findLastOfIn, hf] at h
      by_cases hd : d ∈ chars
      · simp [hd] at h
      · intro x hx
        rcases List.mem_cons.mp hx with rfl | hx2
        · exact hd
        · exact ih hf x hx2

theorem findLastOfIn_some {chars s : List Char} {i : Nat} (h : findLastOfIn chars s = some i) :
    (∃ c ∈ chars, s = s.take i ++ c :: s.drop (i + 1)) ∧ ∀ x ∈ s.drop (i + 1), x ∉ chars := by
  induction s generalizing i with
  | nil => simp [findLastOfIn] at h
  | cons d ds ih =>
    cases hf : findLastOfIn chars ds with
    | some j =>
      simp only [findLastOfIn, hf, Option.some.injEq] at h
      subst h
      obtain ⟨⟨c, hc, e⟩, h2⟩ := ih hf
      refine ⟨⟨c, hc, ?_⟩, ?_⟩
      · simp only [List.take_succ_cons, List.drop_succ_cons, List.cons_append]
        exact congrArg (List.cons d) e
      · simpa using h2
    | none =>
      simp only [findLastOfIn, hf] at h
      by_cases hd : d ∈ chars
      · simp only [hd, if_true, Option.some.injEq] at h
        subst h
        have hfree : ∀ x ∈ ds, x ∉ chars := findLastOfIn_eq_none hf
        exact ⟨⟨d, hd, by simp⟩, by simpa using hfree⟩
      · simp [hd] at h

theorem append_ne_self (k s : String) (h : s.data ≠ []) : k ++ s ≠ k := by
  intro e
  have := congrArg String.data e
  simp only [String.data_append, List.append_right_eq_self] at this
  exact h this

theorem findStr_comma (s : String) : findStr s "," = findCharIn ',' s.data := by
  show findStrIn [','] s.data = _
  exact findStrIn_singleton _ _

end StdString

/-! ## Lemmas on `StringUtil::split` and on the tokens of `addAppenders` -/

namespace StringUtil

theorem splitChars_ne_nil (d : Char) (s : List Char) : splitChars d s ≠ [] := by
  cases s with
  | nil => simp [splitChars]
  | cons c cs =>
    by_cases h : c = d
    · simp [splitChars, h]
    · simp only [splitChars, h, if_false]
      split <;> simp

theorem splitChars_of_not_mem {d : Char} {s : List Char} (h : d ∉ s) : splitChars d s = [s] := by
  induction s with
  | nil => simp [splitChars]
  | cons c cs ih =>
    have hc : ¬ c = d := fun e => h (by simp [e])
    have hcs : d ∉ cs := fun e => h (by simp [e])
    simp [splitChars, hc, ih hcs]

theorem splitChars_append {d : Char} {pre : List Char} (post : List Char) (h : d ∉ pre) :
    splitChars d (pre ++ d :: post) = pre :: splitChars d post := by
  induction pre with
  | nil => simp [splitChars]
  | cons c cs ih =>
    have hc : ¬ c = d := fun e => h (by simp [e])
    have hcs : d ∉ cs := fun e => h (by simp [e])
    simp [splitChars, hc, ih hcs]

theorem not_mem_of_mem_splitChars {d : Char} {s seg : List Char} (h : seg ∈ splitChars d s) :
    d ∉ seg := by
  induction s generalizing seg with
  | nil =>
    simp [splitChars] at h
    simp [h]
  | cons c cs ih =>
    by_cases hc : c = d
    · simp only [splitChars, hc, if_true, List.mem_cons] at h
      rcases h with h | h
      · simp [h]
      · exact ih h
    · simp only [splitChars, hc, if_false] at h
      cases hs : splitChars d cs with
      | nil => exact absurd hs (splitChars_ne_nil d cs)
      | cons seg0 segs =>
        rw [hs] at h
        simp only [List.mem_cons] at h
        have hd : ¬ d = c := fun e => hc e.symm
        rcases h with h | h
        · subst h
          have := @ih seg0 (by simp [hs])
          simp [hd, this]
        · exact ih (by simp [hs, h])

theorem split_of_not_mem {s : String} (h : ',' ∉ s.data) : split s ',' = [s] := by
  simp [split, splitChars_of_not_mem h]

end StringUtil

open StdString in
theorem storeTokens_eq (fuel : Nat) (rightString : String) (length : Nat) (tokens : List String)
    (h : findCharIn ',' rightString.data = some length) (hfuel : rightString.data.length ≤ fuel) :
    storeTokens fuel rightString length tokens =
      (tokens ++ ((StringUtil.splitChars ',' rightString.data).dropLast.map String.mk),
        ⟨(StringUtil.splitChars ',' rightString.data).getLastD []⟩) := by
  induction fuel generalizing rightString length tokens with
  | zero =>
    have : rightString.data = [] := List.length_eq_zero.mp (Nat.le_zero.mp hfuel)
    rw [this] at h
    simp [findCharIn] at h
  | succ fuel ih =>
    obtain ⟨hpre, hsplit⟩ := findCharIn_some h
    have e := StringUtil.splitChars_append (d := ',') (rightString.data.drop (length + 1)) hpre
    rw [← hsplit] at e
    have hlen : (rightString.data.drop (length + 1)).length ≤ fuel := by
      have := congrArg List.length hsplit
      simp only [List.length_append, List.length_cons] at this
      omega
    have hne := StringUtil.splitChars_ne_nil ',' (rightString.data.drop (length + 1))
    simp only [storeTokens, findStr_comma, substr, substrFrom, List.drop_zero]
    cases hf : findCharIn ',' (rightString.data.drop (length + 1)) with
    | none =>
      have hfree := findCharIn_none.mp hf
      rw [e, StringUtil.splitChars_of_not_mem hfree]
      simp
    | some l =>
      simp only []
      rw [ih _ l _ hf hlen, e]
      cases hs : StringUtil.splitChars ',' (rightString.data.drop (length + 1)) with
      | nil => exact absurd hs hne
      | cons seg segs => simp [List.getLastD]

theorem not_mem_of_mem_cutAtCommas {value token : String} (h : token ∈ cutAtCommas value) :
    ',' ∉ token.data := by
  simp only [cutAtCommas, List.mem_map] at h
  obtain ⟨seg, hseg, rfl⟩ := h
  apply StringUtil.not_mem_of_mem_splitChars (s := value.data)
  split at hseg
  · exact List.mem_of_mem_dropLast hseg
  · exact hseg

open StdString in
theorem addAppenders_eq_applyTokens (env : Collaborators) (properties : Properties)
    (allAppenders : AppenderMap) (hierarchy : Hierarchy) (categoryName value : String)
    (hkey : StdMap.find properties (tempCatName categoryName) = some value)
    (hcomma : ',' ∈ value.data) :
    addAppenders env properties allAppenders hierarchy categoryName =
      applyTokens env allAppenders categoryName (categoryOf categoryName) (cutAtCommas value)
        (hierarchy.removeAllAppenders (categoryOf categoryName)) := by
  unfold addAppenders
  simp only [hkey, findStr_comma]
  cases hf : findCharIn ',' value.data with
  | none => exact absurd hcomma (findCharIn_none.mp hf)
  | some length =>
    simp only []
    rw [storeTokens_eq value.length value length [] hf (le_of_eq rfl)]
    have hne := StringUtil.splitChars_ne_nil ',' value.data
    congr 1
    simp only [cutAtCommas, List.nil_append]
    by_cases hl : (StringUtil.splitChars ',' value.data).getLastD [] = []
    · have h0 : ¬ (String.mk []).length > 0 := by decide
      simp only [hl, h0, if_true, if_false]
    · have hpos : (String.mk ((StringUtil.splitChars ',' value.data).getLastD [])).length > 0 := by
        simp only [String.length]
        exact List.length_pos.mpr hl
      simp only [hpos, hl, if_true, if_false]
      conv_rhs => rw [← List.dropLast_append_getLast hne]
      rw [List.getLastD_eq_getLast?, List.getLast?_eq_getLast _ hne]
      simp

theorem addAppenders_of_no_comma (env : Collaborators) (properties : Properties)
    (allAppenders : AppenderMap) (hierarchy : Hierarchy) (categoryName value : String)
    (hkey : StdMap.find properties (tempCatName categoryName) = some value)
    (hcomma : ',' ∉ value.data) :
    addAppenders env properties allAppenders hierarchy categoryName =
      .failed ("Invalid configuration file: see " ++ tempCatName categoryName) hierarchy := by
  unfold addAppenders
  simp only [hkey, StdString.findStr_comma, StdString.findCharIn_none.mpr hcomma]

theorem applyTokens_cons (env : Collaborators) (allAppenders : AppenderMap) (categoryName : String)
    (category : CategoryRef) (token : String) (rest : List String) (hierarchy : Hierarchy)
    (h : ',' ∉ token.data) :
    applyTokens env allAppenders categoryName category (token :: rest) hierarchy =
      match env.getPriorityValue (StringUtil.trim token) with
      | none =>
        .failed ("unknown priority '" ++ StringUtil.trim token ++ "' for category '" ++
          categoryName ++ "'") hierarchy
      | some value =>
        applyTokens env allAppenders categoryName category rest
          (hierarchy.setPriority category value) := by
  simp only [applyTokens, StringUtil.split_of_not_mem h, attachAppenders]

/-- On comma-free tokens the second loop of `addAppenders` leaves the appenders of every
category as they are. -/
theorem applyTokens_appenders (env : Collaborators) (allAppenders : AppenderMap)
    (categoryName : String) (category : CategoryRef) (tokens : List String)
    (hierarchy : Hierarchy) (h : ∀ t ∈ tokens, ',' ∉ t.data) (d : CategoryRef) :
    ((applyTokens env allAppenders categoryName category tokens hierarchy).state d).appenders =
      (hierarchy d).appenders := by
  induction tokens generalizing hierarchy with
  | nil => rfl
  | cons token rest ih =>
    rw [applyTokens_cons _ _ _ _ _ _ _ (h token (by simp))]
    cases env.getPriorityValue (StringUtil.trim token) with
    | none => rfl
    | some value =>
      simp only []
      rw [ih _ (fun t ht => h t (by simp [ht]))]
      unfold Hierarchy.setPriority
      split <;> rfl

/-- On comma-free tokens, whether the second loop of `addAppenders` throws, and what, does not
depend on the categories. -/
theorem applyTokens_failure (env : Collaborators) (allAppenders : AppenderMap)
    (categoryName : String) (category : CategoryRef) (tokens : List String)
    (h : ∀ t ∈ tokens, ',' ∉ t.data) (hierarchy hierarchy2 : Hierarchy) :
    (applyTokens env allAppenders categoryName category tokens hierarchy).failure =
      (applyTokens env allAppenders categoryName category tokens hierarchy2).failure := by
  induction tokens generalizing hierarchy hierarchy2 with
  | nil => rfl
  | cons token rest ih =>
    rw [applyTokens_cons _ _ _ _ _ _ _ (h token (by simp)),
      applyTokens_cons _ _ _ _ _ _ _ (h token (by simp))]
    cases env.getPriorityValue (StringUtil.trim token) with
    | none => rfl
    | some value => exact ih (fun t ht => h t (by simp [ht])) _ _

theorem Outcome.eq_ok_of_failure_none {σ : Type} {o : Outcome σ} (h : o.failure = none) :
    o = .ok o.state := by
  cases o with
  | ok s => rfl
  | failed m s => simp [Outcome.failure] at h

/-! ## Lemmas on the factories -/

open StdString in
theorem typeName_eq_iff (value segment : String) :
    typeName value = segment ↔ LastSegment value segment := by
  have hdot : ".".data = ['.'] := rfl
  constructor
  · intro h
    unfold typeName find_last_of at h
    rw [hdot] at h
    cases hf : findLastOfIn ['.'] value.data with
    | none =>
      simp only [hf] at h
      subst h
      refine ⟨fun hm => ?_, Or.inl rfl⟩
      exact findLastOfIn_eq_none hf _ hm (by simp)
    | some i =>
      simp only [hf] at h
      obtain ⟨⟨c, hc, e⟩, hfree⟩ := findLastOfIn_some hf
      have hc2 : c = '.' := by simpa using hc
      subst hc2
      subst h
      refine ⟨fun hm => hfree _ hm (by simp), Or.inr ⟨⟨value.data.take i⟩, ?_⟩⟩
      apply String.ext
      simp only [String.data_append, substrFrom, hdot]
      simpa using e
  · rintro ⟨hfree, rfl | ⟨p, rfl⟩⟩
    · unfold typeName find_last_of
      rw [hdot, findLastOfIn_none (fun c hc => by
        intro hcd
        have : c = '.' := by simpa using hcd
        exact hfree (this ▸ hc))]
    · unfold typeName find_last_of
      have e : (p ++ "." ++ segment).data = p.data ++ '.' :: segment.data := by
        simp [String.data_append, hdot]
      rw [hdot, e, findLastOfIn_append p.data (by simp) (fun x hx => by
        intro hxd
        have : x = '.' := by simpa using hxd
        exact hfree (this ▸ hx))]
      apply String.ext
      simp only [substrFrom, e]
      have e2 : p.data ++ '.' :: segment.data = (p.data ++ ['.']) ++ segment.data := by simp
      rw [e2]
      exact List.drop_left' (by rw [List.length_append]; rfl)

theorem StdMap.find_set_self {V : Type} (m : StdMap V) (key : String) (value : V) :
    StdMap.find (StdMap.set m key value) key = some value := by
  induction m with
  | nil => simp [StdMap.set, StdMap.find]
  | cons e rest ih =>
    obtain ⟨k, v⟩ := e
    unfold StdMap.set
    split
    · simp [StdMap.find]
    · split
      · simp [StdMap.find]
      · rename_i h
        simp [StdMap.find, h, ih]

theorem StdMap.find_set_ne {V : Type} (m : StdMap V) (key other : String) (value : V)
    (h : other ≠ key) : StdMap.find (StdMap.set m key value) other = StdMap.find m other := by
  have h2 : ¬ key = other := fun e => h e.symm
  induction m with
  | nil => simp [StdMap.set, StdMap.find, h2]
  | cons e rest ih =>
    obtain ⟨k, v⟩ := e
    unfold StdMap.set
    split
    · simp [StdMap.find, h2]
    · split
      · rename_i hk
        subst hk
        simp [StdMap.find, h2]
      · by_cases hk : k = other
        · simp [StdMap.find, hk]
        · simp [StdMap.find, hk, ih]

theorem construct_congr (env : Collaborators) (p q : Properties) (appenderName appenderType : String)
    (h : ∀ key, ¬ IsLayoutKey appenderName key → key ≠ "appender." ++ appenderName →
      StdMap.find p key = StdMap.find q key) :
    construct env p appenderName appenderType = construct env q appenderName appenderType := by
  have hk : ∀ suffix : String, suffix.data ≠ [] → ¬ ".layout".data <+: suffix.data →
      StdMap.find p ("appender." ++ appenderName ++ suffix) =
        StdMap.find q ("appender." ++ appenderName ++ suffix) := by
    intro suffix h1 h2
    apply h
    · unfold IsLayoutKey
      simpa [List.append_assoc, List.prefix_append_right_inj] using h2
    · exact StdString.append_ne_self _ _ h1
  unfold construct Properties.getString Properties.getInt
  rw [hk ".fileName" (by decide) (by decide), hk ".syslogName" (by decide) (by decide),
    hk ".syslogHost" (by decide) (by decide), hk ".facility" (by decide) (by decide),
    hk ".portNumber" (by decide) (by decide)]

theorem setLayout_congr (env : Collaborators) (p q : Properties) (appender : Appender)
    (appenderName : String)
    (h : ∀ key, IsLayoutKey appenderName key → StdMap.find p key = StdMap.find q key) :
    setLayout env p appender appenderName = setLayout env q appender appenderName := by
  unfold setLayout
  rw [h ("appender." ++ appenderName ++ ".layout") (by simp [IsLayoutKey]),
    h ("appender." ++ appenderName ++ ".layout.ConversionPattern") (by
      unfold IsLayoutKey
      simp only [String.data_append, List.append_assoc]
      rw [List.prefix_append_right_inj, List.prefix_append_right_inj]
      decide)]

theorem construct_kind (env : Collaborators) (p : Properties) (appenderName appenderType : String) :
    (construct env p appenderName appenderType).map AppenderCtor.kind =
      kindNamed env appenderType := by
  unfold construct kindNamed
  by_cases h1 : appenderType = "ConsoleAppender"
  · simp [h1, AppenderCtor.kind]
  by_cases h2 : appenderType = "FileAppender"
  · simp [h2, AppenderCtor.kind]
  by_cases h3 : appenderType = "SyslogAppender"
  · simp [h3, AppenderCtor.kind]
  by_cases h4 : env.WIN32 = true ∧ appenderType = "Win32DebugAppender"
  · simp [h4.1, h4.2, AppenderCtor.kind]
  · have h5 : ¬ ((env.WIN32 && decide (appenderType = "Win32DebugAppender")) = true) := by
      simpa using h4
    simp only [h1, h2, h3, h4, h5, if_false]
    rfl

theorem isLayoutKey_ne (appenderName key : String) (h : IsLayoutKey appenderName key) :
    key ≠ "appender." ++ appenderName := by
  rintro rfl
  have := List.IsPrefix.length_le h
  simp [String.data_append] at this

open StdString in
theorem getCategories_scan (entries : List (String × String)) (catlist : List String) :
    ∃ names, getCategories.scan entries catlist = catlist ++ names ∧
      List.Forall₂ NameAfterFirst
        ((entries.map Prod.fst).filter (fun key => decide (HasCategoryDot key))) names := by
  induction entries generalizing catlist with
  | nil => exact ⟨[], by simp [getCategories.scan]⟩
  | cons e rest ih =>
    obtain ⟨key, v⟩ := e
    cases hf : findStrIn "category.".data key.data with
    | none =>
      obtain ⟨names, h1, h2⟩ := ih catlist
      have hno : ¬ HasCategoryDot key := findStrIn_none hf
      refine ⟨names, ?_, ?_⟩
      · simp only [getCategories.scan, findStr, hf]
        exact h1
      · simpa [hno] using h2
    | some length =>
      obtain ⟨names, h1, h2⟩ := ih (catlist ++ [substrFrom key (length + "category.".length)])
      obtain ⟨hsplit, hmin⟩ := findStrIn_some hf
      have hyes : HasCategoryDot key := by
        unfold HasCategoryDot
        exact ⟨_, _, hsplit.symm⟩
      refine ⟨substrFrom key (length + "category.".length) :: names, ?_, ?_⟩
      · simp only [getCategories.scan, findStr, hf]
        rw [h1]
        simp
      · simp only [List.map_cons, List.filter_cons, hyes, decide_True, if_true]
        refine List.Forall₂.cons ⟨key.data.take length, hsplit, fun pre2 post2 e => ?_⟩ h2
        have := hmin pre2 post2 e
        have hl : (key.data.take length).length ≤ length := List.length_take_le _ _
        omega

theorem not_isLayoutKey_self (appenderName : String) :
    ¬ IsLayoutKey appenderName ("appender." ++ appenderName) :=
  fun h => isLayoutKey_ne appenderName _ h rfl

theorem construct_eq_some_of_kindNamed (env : Collaborators) (p : Properties)
    (appenderName appenderType : String) (kind : AppenderKind)
    (h : kindNamed env appenderType = some kind) :
    ∃ ctor, construct env p appenderName appenderType = some ctor ∧ ctor.kind = kind := by
  have := construct_kind env p appenderName appenderType
  rw [h] at this
  simpa using this

theorem not_defined_ne_missing (n m : String) :
    "Appender '" ++ n ++ "' not defined" ≠ "Missing layout property for appender '" ++ m ++ "'" := by
  intro h
  have := congrArg String.data h
  simp at this

theorem unknown_type_ne_missing (n t m : String) :
    "Appender '" ++ n ++ "' has unknown type '" ++ t ++ "'" ≠
      "Missing layout property for appender '" ++ m ++ "'" := by
  intro h
  have := congrArg String.data h
  simp at this

theorem unknown_layout_ne_missing (n t m : String) :
    "Unknown layout type '" ++ t ++ "' for appender '" ++ n ++ "'" ≠
      "Missing layout property for appender '" ++ m ++ "'" := by
  intro h
  have := congrArg String.data h
  simp at this

/-- When the layout key is in the store, `setLayout` does not throw "Missing layout
property". -/
theorem setLayout_ne_missing (env : Collaborators) (p : Properties) (appender : Appender)
    (n value : String) (h : StdMap.find p ("appender." ++ n ++ ".layout") = some value) :
    setLayout env p appender n ≠ .error ("Missing layout property for appender '" ++ n ++ "'") := by
  unfold setLayout
  simp only [h]
  split
  · simp
  · split
    · simp
    · split
      · split <;> simp
      · intro e
        exact unknown_layout_ne_missing _ _ _ (Except.error.inj e)

/-! ## The claims -/

/-- C1 (fails on the code): on the minimal store `rootCategory = WARN,A`,
`appender.A = ConsoleAppender`, with or without a layout key for `A`, `doConfigure` does not
succeed. It throws "partial appender definition : appender.A" out of
`instantiateAllAppenders`, whatever the collaborators and the state before; nothing is
registered and no category is touched. -/
theorem C1_minimal_store_is_rejected (env : Collaborators) (state : ConfigState)
    (layoutValue : String) :
    doConfigure env [("appender.A", "ConsoleAppender"), ("rootCategory", "WARN,A")] state =
        .failed "partial appender definition : appender.A" state ∧
      doConfigure env
          [("appender.A", "ConsoleAppender"), ("appender.A.layout", layoutValue),
            ("rootCategory", "WARN,A")] state =
        .failed "partial appender definition : appender.A" state :=
  ⟨rfl, rfl⟩

/-- C2 (fails on the code): with `A` in the registry and the value `WARN,A`, `addAppenders`
does not bind `A`: it hands `A` to the priority parser and throws "unknown priority"; with
`DEBUG` in the registry and the value `WARN,DEBUG` it succeeds, but the priority is the one
of `DEBUG` and no appender is bound. -/
theorem C2_listed_appender_is_read_as_priority (hierarchy : Hierarchy) :
    addAppenders sampleEnv [("rootCategory", "WARN,A")]
        [("A", ⟨.OstreamAppender "A", some .BasicLayout⟩)] hierarchy "rootCategory" =
      .failed "unknown priority 'A' for category 'rootCategory'"
        ((hierarchy.removeAllAppenders .getRoot).setPriority .getRoot 400) ∧
    addAppenders sampleEnv [("rootCategory", "WARN,DEBUG")]
        [("DEBUG", ⟨.OstreamAppender "DEBUG", some .BasicLayout⟩)] hierarchy "rootCategory" =
      .ok (((hierarchy.removeAllAppenders .getRoot).setPriority .getRoot 400).setPriority
        .getRoot 700) ∧
    ((((hierarchy.removeAllAppenders .getRoot).setPriority .getRoot 400).setPriority
        .getRoot 700) .getRoot).appenders = [] :=
  ⟨rfl, rfl, rfl⟩

/-- C3 (fails on the code): for `rootCategory = INFO,Ghost` and an empty registry,
`addAppenders` throws "unknown priority 'Ghost' for category 'rootCategory'", not the
appender-not-found failure; and for `rootCategory = INFO,DEBUG`, where the missing appender
has the name of a priority, it does not fail at all. -/
theorem C3_missing_appender_is_read_as_priority (hierarchy : Hierarchy) :
    (addAppenders sampleEnv [("rootCategory", "INFO,Ghost")] [] hierarchy "rootCategory").failure =
      some "unknown priority 'Ghost' for category 'rootCategory'" ∧
    (addAppenders sampleEnv [("rootCategory", "INFO,DEBUG")] [] hierarchy "rootCategory").failure =
      none :=
  ⟨rfl, rfl⟩

/-- C4: when the key of the category is in the store and its value holds no comma,
`addAppenders` throws "Invalid configuration file: see " followed by the key (and leaves the
categories as they were). -/
theorem C4_value_without_comma_is_rejected (env : Collaborators) (properties : Properties)
    (allAppenders : AppenderMap) (hierarchy : Hierarchy) (categoryName value : String)
    (hkey : StdMap.find properties (tempCatName categoryName) = some value)
    (hcomma : ',' ∉ value.data) :
    addAppenders env properties allAppenders hierarchy categoryName =
      .failed ("Invalid configuration file: see " ++ tempCatName categoryName) hierarchy :=
  addAppenders_of_no_comma env properties allAppenders hierarchy categoryName value hkey hcomma

/-- Witness of C4: `category.foo = WARN`, a valid priority name on its own, is rejected. -/
theorem C4_value_without_comma_is_rejected_witness :
    addAppenders sampleEnv [("category.foo", "WARN")] [] emptyHierarchy "foo" =
      .failed "Invalid configuration file: see category.foo" emptyHierarchy :=
  C4_value_without_comma_is_rejected sampleEnv [("category.foo", "WARN")] [] emptyHierarchy
    "foo" "WARN" rfl (by decide)

/-- C5: after a successful `addAppenders` every appender bound to the category is named in
the configuration value; an appender bound before and not named in the value is no longer
bound; and from any other prior state the call succeeds too, with the same appenders bound to
the category. -/
theorem C5_binding_replaces (env : Collaborators) (properties : Properties)
    (allAppenders : AppenderMap) (hierarchy result : Hierarchy) (categoryName : String)
    (hok : addAppenders env properties allAppenders hierarchy categoryName = .ok result) :
    ∃ value, StdMap.find properties (tempCatName categoryName) = some value ∧
      (∀ a ∈ (result (categoryOf categoryName)).appenders, NamedIn value a) ∧
      (∀ a ∈ (hierarchy (categoryOf categoryName)).appenders, ¬ NamedIn value a →
        a ∉ (result (categoryOf categoryName)).appenders) ∧
      (∀ prior : Hierarchy, ∃ result2,
        addAppenders env properties allAppenders prior categoryName = .ok result2 ∧
        (result2 (categoryOf categoryName)).appenders =
          (result (categoryOf categoryName)).appenders) := by
  cases hkey : StdMap.find properties (tempCatName categoryName) with
  | none => simp [addAppenders, hkey] at hok
  | some value =>
    by_cases hcomma : ',' ∈ value.data
    · have hfree : ∀ t ∈ cutAtCommas value, ',' ∉ t.data :=
        fun t ht => not_mem_of_mem_cutAtCommas ht
      have key : ∀ h : Hierarchy,
          ((addAppenders env properties allAppenders h categoryName).state
            (categoryOf categoryName)).appenders = [] := by
        intro h
        rw [addAppenders_eq_applyTokens env properties allAppenders h categoryName value hkey
          hcomma, applyTokens_appenders _ _ _ _ _ _ hfree]
        simp [Hierarchy.removeAllAppenders]
      have hres : (result (categoryOf categoryName)).appenders = [] := by
        have := key hierarchy
        rwa [hok] at this
      refine ⟨value, rfl, ?_, ?_, ?_⟩
      · intro a ha
        rw [hres] at ha
        cases ha
      · intro a _ _ ha
        rw [hres] at ha
        cases ha
      · intro prior
        have hfail : (addAppenders env properties allAppenders prior categoryName).failure =
            none := by
          rw [addAppenders_eq_applyTokens env properties allAppenders prior categoryName value
            hkey hcomma, applyTokens_failure _ _ _ _ _ hfree _
              (hierarchy.removeAllAppenders (categoryOf categoryName)),
            ← addAppenders_eq_applyTokens env properties allAppenders hierarchy categoryName
              value hkey hcomma, hok]
          rfl
        refine ⟨_, Outcome.eq_ok_of_failure_none hfail, ?_⟩
        rw [key prior, hres]
    · rw [addAppenders_of_no_comma env properties allAppenders hierarchy categoryName value hkey
        hcomma] at hok
      cases hok

/-- Witness of C5: the root category holds the appender `A`; binding `rootCategory = WARN,`
succeeds and leaves the root category without `A`, from that state and from any other. -/
theorem C5_binding_replaces_witness :
    addAppenders sampleEnv [("rootCategory", "WARN,")] [] boundHierarchy "rootCategory" =
        .ok reboundHierarchy ∧
      ∃ value, StdMap.find [("rootCategory", "WARN,")] (tempCatName "rootCategory") = some value ∧
        (∀ a ∈ (reboundHierarchy (categoryOf "rootCategory")).appenders, NamedIn value a) ∧
        (∀ a ∈ (boundHierarchy (categoryOf "rootCategory")).appenders, ¬ NamedIn value a →
          a ∉ (reboundHierarchy (categoryOf "rootCategory")).appenders) ∧
        (∀ prior : Hierarchy, ∃ result2,
          addAppenders sampleEnv [("rootCategory", "WARN,")] [] prior "rootCategory" =
            .ok result2 ∧
          (result2 (categoryOf "rootCategory")).appenders =
            (reboundHierarchy (categoryOf "rootCategory")).appenders) :=
  ⟨rfl, C5_binding_replaces sampleEnv [("rootCategory", "WARN,")] [] boundHierarchy
    reboundHierarchy "rootCategory" rfl⟩

/-- C6: `getCategories` appends `rootCategory` and then, for the keys of the store that
contain `category.` somewhere, taken in the order of the store, the text of the key after the
first occurrence of `category.`; for the keys `category.foo`, `category.foo.bar` and
`rootCategory` (the order of the store) the list is `rootCategory`, `foo`, `foo.bar`. -/
theorem C6_getCategories_enumerates (properties : Properties) (catlist : List String)
    (a b c : String) :
    (∃ names, getCategories properties catlist = catlist ++ "rootCategory" :: names ∧
      List.Forall₂ NameAfterFirst
        ((properties.map Prod.fst).filter (fun key => decide (HasCategoryDot key))) names) ∧
    getCategories [("category.foo", a), ("category.foo.bar", b), ("rootCategory", c)] [] =
      ["rootCategory", "foo", "foo.bar"] := by
  refine ⟨?_, rfl⟩
  obtain ⟨names, h1, h2⟩ := getCategories_scan properties (catlist ++ ["rootCategory"])
  exact ⟨names, by simpa [getCategories] using h1, h2⟩

/-- C7 (fails on the code): for a store whose appender keys are `appender.A` and
`appender.A.layout`, `instantiateAllAppenders` throws
"partial appender definition : appender.A" and registers nothing, whatever the two values
are. And where the first key gets past the guard (a name that begins with the character of
code 1), the sub-property key is not a repeat of its appender: its name is everything after
`appender.`, here the name followed by `.layout`, and the scan instantiates that as a new
appender and fails. -/
theorem C7_sub_property_keys_are_not_skipped (env : Collaborators) (allAppenders : AppenderMap)
    (typeTag layoutTag : String) :
    instantiateAllAppenders env [("appender.A", typeTag), ("appender.A.layout", layoutTag)]
        allAppenders =
      .failed "partial appender definition : appender.A" allAppenders ∧
    (instantiateAllAppenders sampleEnv
        [("appender.\x01", "ConsoleAppender"), ("appender.\x01.layout", "BasicLayout")]
        []).failure =
      some "Appender '\x01.layout' has unknown type 'BasicLayout'" :=
  ⟨rfl, rfl⟩

/-- C8: when the tag `t` holds no dot, `instantiateAppender` has the same outcome on a store
where `appender.<n>` is `p.t` as on the same store where `appender.<n>` is `t`. -/
theorem C8_type_tag_qualifier_is_ignored (env : Collaborators) (properties : Properties)
    (n p t : String) (hdot : '.' ∉ t.data) :
    instantiateAppender env (StdMap.set properties ("appender." ++ n) (p ++ "." ++ t)) n =
      instantiateAppender env (StdMap.set properties ("appender." ++ n) t) n := by
  have h1 : typeName (p ++ "." ++ t) = t := (typeName_eq_iff _ _).mpr ⟨hdot, Or.inr ⟨p, rfl⟩⟩
  have h2 : typeName t = t := (typeName_eq_iff _ _).mpr ⟨hdot, Or.inl rfl⟩
  have hfind : ∀ key, key ≠ "appender." ++ n →
      StdMap.find (StdMap.set properties ("appender." ++ n) (p ++ "." ++ t)) key =
        StdMap.find (StdMap.set properties ("appender." ++ n) t) key := by
    intro key hkey
    rw [StdMap.find_set_ne _ _ _ _ hkey, StdMap.find_set_ne _ _ _ _ hkey]
  unfold instantiateAppender
  simp only [StdMap.find_set_self, h1, h2]
  rw [construct_congr env _ (StdMap.set properties ("appender." ++ n) t) n t
    (fun key _ hkey => hfind key hkey)]
  cases construct env (StdMap.set properties ("appender." ++ n) t) n t with
  | none => rfl
  | some ctor =>
    simp only []
    rw [setLayout_congr env _ (StdMap.set properties ("appender." ++ n) t) _ n
      (fun key hkey => hfind key (isLayoutKey_ne n key hkey))]

/-- Witness of C8: `some.prefix.FileAppender` and `FileAppender` build the same appender. -/
theorem C8_type_tag_qualifier_is_ignored_witness :
    '.' ∉ "FileAppender".data ∧
      instantiateAppender sampleEnv
          (StdMap.set [("appender.A.fileName", "x.log"), ("appender.A.layout", "BasicLayout")]
            ("appender." ++ "A") ("some.prefix" ++ "." ++ "FileAppender")) "A" =
        instantiateAppender sampleEnv
          (StdMap.set [("appender.A.fileName", "x.log"), ("appender.A.layout", "BasicLayout")]
            ("appender." ++ "A") "FileAppender") "A" :=
  ⟨by decide, C8_type_tag_qualifier_is_ignored sampleEnv
    [("appender.A.fileName", "x.log"), ("appender.A.layout", "BasicLayout")] "A" "some.prefix"
    "FileAppender" (by decide)⟩

/-- C9: `instantiateAppender` throws "Missing layout property for appender 'n'" exactly
when `appender.n` is in the store, the last segment of its value names a known appender kind,
that kind requires a layout and `appender.n.layout` is not in the store; and when the kind
named does not require a layout, two stores that differ only in keys beginning with
`appender.n.layout` give the same outcome. -/
theorem C9_missing_layout (env : Collaborators) (p q : Properties) (n : String) :
    (instantiateAppender env p n = .error ("Missing layout property for appender '" ++ n ++ "'") ↔
      ∃ value segment kind, StdMap.find p ("appender." ++ n) = some value ∧
        LastSegment value segment ∧ kindNamed env segment = some kind ∧
        env.requiresLayout kind = true ∧
        StdMap.find p ("appender." ++ n ++ ".layout") = none) ∧
    ((∀ key, ¬ IsLayoutKey n key → StdMap.find p key = StdMap.find q key) →
      (∀ value segment kind, StdMap.find p ("appender." ++ n) = some value →
        LastSegment value segment → kindNamed env segment = some kind →
        env.requiresLayout kind = false) →
      instantiateAppender env p n = instantiateAppender env q n) := by
  constructor
  · constructor
    · intro h
      unfold instantiateAppender at h
      cases hv : StdMap.find p ("appender." ++ n) with
      | none =>
        simp only [hv] at h
        exact absurd (Except.error.inj h) (not_defined_ne_missing _ _)
      | some value =>
        simp only [hv] at h
        cases hc : construct env p n (typeName value) with
        | none =>
          simp only [hc] at h
          exact absurd (Except.error.inj h) (unknown_type_ne_missing _ _ _)
        | some ctor =>
          simp only [hc] at h
          have hk := construct_kind env p n (typeName value)
          rw [hc] at hk
          by_cases hr : env.requiresLayout ctor.kind = true
          · simp only [hr, if_true] at h
            cases hl : StdMap.find p ("appender." ++ n ++ ".layout") with
            | none =>
              exact ⟨value, typeName value, ctor.kind, rfl,
                (typeName_eq_iff _ _).mp rfl, hk.symm, hr, rfl⟩
            | some lv => exact absurd h (setLayout_ne_missing env p _ n lv hl)
          · simp [hr] at h
    · rintro ⟨value, segment, kind, hv, hseg, hkind, hr, hl⟩
      have ht := (typeName_eq_iff _ _).mpr hseg
      obtain ⟨ctor, hc, hck⟩ := construct_eq_some_of_kindNamed env p n segment kind hkind
      unfold instantiateAppender
      simp only [hv, ht, hc, hck, hr, if_true]
      unfold setLayout
      simp only [hl]
  · intro hagree hno
    unfold instantiateAppender
    rw [← hagree _ (not_isLayoutKey_self n)]
    cases hv : StdMap.find p ("appender." ++ n) with
    | none => rfl
    | some value =>
      simp only []
      rw [← construct_congr env p q n (typeName value) (fun key hkey _ => hagree key hkey)]
      cases hc : construct env p n (typeName value) with
      | none => rfl
      | some ctor =>
        have hk := construct_kind env p n (typeName value)
        rw [hc] at hk
        have := hno value (typeName value) ctor.kind hv ((typeName_eq_iff _ _).mp rfl) hk.symm
        simp [this]

/-- Witness of C9: in the sample collaborators the syslog kind takes no layout, and a syslog
appender is built alike with and without layout keys in the store. -/
theorem C9_missing_layout_witness :
    instantiateAppender sampleEnv [("appender.S", "SyslogAppender")] "S" =
      instantiateAppender sampleEnv
        [("appender.S", "SyslogAppender"), ("appender.S.layout", "PatternLayout"),
          ("appender.S.layout.ConversionPattern", "%d")] "S" :=
  (C9_missing_layout sampleEnv [("appender.S", "SyslogAppender")]
    [("appender.S", "SyslogAppender"), ("appender.S.layout", "PatternLayout"),
      ("appender.S.layout.ConversionPattern", "%d")] "S").2
    (by
      intro key hkey
      by_cases h1 : "appender.S" = key
      · subst h1
        rfl
      · by_cases h2 : "appender.S.layout" = key
        · subst h2
          exact absurd (by decide) hkey
        · by_cases h3 : "appender.S.layout.ConversionPattern" = key
          · subst h3
            exact absurd (by decide) hkey
          · simp [StdMap.find, h1, h2, h3])
    (by
      intro value segment kind hv hseg hkind
      have hv2 : value = "SyslogAppender" := by
        have : StdMap.find [("appender.S", "SyslogAppender")] ("appender." ++ "S") =
            some "SyslogAppender" := rfl
        rw [this] at hv
        exact (Option.some.inj hv).symm
      subst hv2
      have hs : segment = "SyslogAppender" := ((typeName_eq_iff _ _).mpr hseg).symm.trans rfl
      subst hs
      have : kind = AppenderKind.RemoteSyslogAppender := by
        have hk2 : kindNamed sampleEnv "SyslogAppender" = some AppenderKind.RemoteSyslogAppender :=
          rfl
        rw [hk2] at hkind
        exact (Option.some.inj hkind).symm
      subst this
      rfl)

/-- C10: when the layout tag of an appender has the last segment `PatternLayout`, `setLayout`
succeeds; without the key `appender.<name>.layout.ConversionPattern` the layout set is a
pattern layout with the default pattern, and with the key it is a pattern layout whose
pattern is the value of the key. -/
theorem C10_pattern_layout (env : Collaborators) (p : Properties) (appender : Appender)
    (name value : String)
    (hlayout : StdMap.find p ("appender." ++ name ++ ".layout") = some value)
    (hseg : LastSegment value "PatternLayout") :
    (StdMap.find p ("appender." ++ name ++ ".layout.ConversionPattern") = none →
      setLayout env p appender name =
        .ok { appender with layout := some (.PatternLayout env.defaultConversionPattern) }) ∧
    (∀ pattern, StdMap.find p ("appender." ++ name ++ ".layout.ConversionPattern") = some pattern →
      setLayout env p appender name =
        .ok { appender with layout := some (.PatternLayout pattern) }) := by
  have ht := (typeName_eq_iff _ _).mpr hseg
  constructor
  · intro h
    unfold setLayout
    simp only [hlayout, ht, h]
    rfl
  · intro pattern h
    unfold setLayout
    simp only [hlayout, ht, h]
    rfl

/-- Witness of C10: a qualified `PatternLayout` tag, once without and once with a
`ConversionPattern` key. -/
theorem C10_pattern_layout_witness :
    setLayout sampleEnv [("appender.A.layout", "org.PatternLayout")]
        ⟨.OstreamAppender "A", none⟩ "A" =
      .ok ⟨.OstreamAppender "A", some (.PatternLayout "%m%n")⟩ ∧
    setLayout sampleEnv
        [("appender.A.layout", "org.PatternLayout"),
          ("appender.A.layout.ConversionPattern", "%d %p")]
        ⟨.OstreamAppender "A", none⟩ "A" =
      .ok ⟨.OstreamAppender "A", some (.PatternLayout "%d %p")⟩ :=
  ⟨(C10_pattern_layout sampleEnv [("appender.A.layout", "org.PatternLayout")]
      ⟨.OstreamAppender "A", none⟩ "A" "org.PatternLayout" rfl
      ⟨by decide, Or.inr ⟨"org", rfl⟩⟩).1 rfl,
    (C10_pattern_layout sampleEnv
      [("appender.A.layout", "org.PatternLayout"),
        ("appender.A.layout.ConversionPattern", "%d %p")]
      ⟨.OstreamAppender "A", none⟩ "A" "org.PatternLayout" rfl
      ⟨by decide, Or.inr ⟨"org", rfl⟩⟩).2 "%d %p" rfl⟩

/-! ## More lemmas on `addAppenders` -/

/-- The three ways through `addAppenders`: the key is missing, the value has no comma, or the
tokens of the value are applied to the cleared category. -/
theorem addAppenders_cases (env : Collaborators) (properties : Properties)
    (allAppenders : AppenderMap) (hierarchy : Hierarchy) (categoryName : String) :
    (StdMap.find properties (tempCatName categoryName) = none ∧
      addAppenders env properties allAppenders hierarchy categoryName =
        .failed ("Unable to find category: " ++ tempCatName categoryName) hierarchy) ∨
    (∃ value, StdMap.find properties (tempCatName categoryName) = some value ∧
      ',' ∉ value.data ∧
      addAppenders env properties allAppenders hierarchy categoryName =
        .failed ("Invalid configuration file: see " ++ tempCatName categoryName) hierarchy) ∨
    (∃ value, StdMap.find properties (tempCatName categoryName) = some value ∧
      ',' ∈ value.data ∧
      addAppenders env properties allAppenders hierarchy categoryName =
        applyTokens env allAppenders categoryName (categoryOf categoryName) (cutAtCommas value)
          (hierarchy.removeAllAppenders (categoryOf categoryName))) := by
  cases hkey : StdMap.find properties (tempCatName categoryName) with
  | none =>
    left
    exact ⟨rfl, by simp [addAppenders, hkey]⟩
  | some value =>
    right
    by_cases hcomma : ',' ∈ value.data
    · right
      exact ⟨value, rfl, hcomma,
        addAppenders_eq_applyTokens env properties allAppenders hierarchy categoryName value hkey
          hcomma⟩
    · left
      exact ⟨value, rfl, hcomma,
        addAppenders_of_no_comma env properties allAppenders hierarchy categoryName value hkey
          hcomma⟩

/-- On comma-free tokens the only message the second loop of `addAppenders` throws is
"unknown priority". -/
theorem applyTokens_failure_form (env : Collaborators) (allAppenders : AppenderMap)
    (categoryName : String) (category : CategoryRef) (tokens : List String)
    (hierarchy : Hierarchy) (h : ∀ t ∈ tokens, ',' ∉ t.data) (message : String)
    (hm : (applyTokens env allAppenders categoryName category tokens hierarchy).failure =
      some message) :
    ∃ t, message = "unknown priority '" ++ t ++ "' for category '" ++ categoryName ++ "'" := by
  induction tokens generalizing hierarchy with
  | nil => simp [applyTokens, Outcome.failure] at hm
  | cons token rest ih =>
    rw [applyTokens_cons _ _ _ _ _ _ _ (h token (by simp))] at hm
    cases hp : env.getPriorityValue (StringUtil.trim token) with
    | none =>
      simp only [hp, Outcome.failure, Option.some.injEq] at hm
      exact ⟨_, hm.symm⟩
    | some value =>
      simp only [hp] at hm
      exact ih _ (fun t ht => h t (by simp [ht])) hm

/-- On comma-free tokens the second loop of `addAppenders` returns exactly when the priority
parser accepts every trimmed token. -/
theorem applyTokens_success_iff (env : Collaborators) (allAppenders : AppenderMap)
    (categoryName : String) (category : CategoryRef) (tokens : List String)
    (hierarchy : Hierarchy) (h : ∀ t ∈ tokens, ',' ∉ t.data) :
    (applyTokens env allAppenders categoryName category tokens hierarchy).failure = none ↔
      ∀ t ∈ tokens, (env.getPriorityValue (StringUtil.trim t)).isSome = true := by
  induction tokens generalizing hierarchy with
  | nil => simp [applyTokens, Outcome.failure]
  | cons token rest ih =>
    rw [applyTokens_cons _ _ _ _ _ _ _ (h token (by simp))]
    cases hp : env.getPriorityValue (StringUtil.trim token) with
    | none => simp [Outcome.failure, hp]
    | some value =>
      simp only []
      rw [ih _ (fun t ht => h t (by simp [ht]))]
      simp [hp]

/-- On comma-free tokens, when the second loop of `addAppenders` returns, the priority of the
category is the parse of the last token. -/
theorem applyTokens_priority (env : Collaborators) (allAppenders : AppenderMap)
    (categoryName : String) (category : CategoryRef) (tokens : List String)
    (hierarchy result : Hierarchy) (h : ∀ t ∈ tokens, ',' ∉ t.data) (last : String)
    (hlast : tokens.getLast? = some last)
    (hok : applyTokens env allAppenders categoryName category tokens hierarchy = .ok result) :
    env.getPriorityValue (StringUtil.trim last) = some (result category).priority := by
  induction tokens generalizing hierarchy with
  | nil => simp at hlast
  | cons token rest ih =>
    rw [applyTokens_cons _ _ _ _ _ _ _ (h token (by simp))] at hok
    cases hp : env.getPriorityValue (StringUtil.trim token) with
    | none => simp [hp] at hok
    | some value =>
      simp only [hp] at hok
      cases rest with
      | nil =>
        simp only [List.getLast?_singleton, Option.some.injEq] at hlast
        subst hlast
        simp only [applyTokens, Outcome.ok.injEq] at hok
        subst hok
        simp [hp, Hierarchy.setPriority]
      | cons t2 rest2 =>
        rw [List.getLast?_cons_cons] at hlast
        exact ih _ (fun t ht => h t (by simp [ht])) hlast hok

/-- A value with a comma has at least one token. -/
theorem cutAtCommas_ne_nil (value : String) (h : ',' ∈ value.data) : cutAtCommas value ≠ [] := by
  obtain ⟨i, hi⟩ := Option.isSome_iff_exists.mp
    (Option.ne_none_iff_isSome.mp (fun e => StdString.findCharIn_none.mp e h))
  obtain ⟨hpre, hsplit⟩ := StdString.findCharIn_some hi
  have e := StringUtil.splitChars_append (d := ',') (value.data.drop (i + 1)) hpre
  rw [← hsplit] at e
  have hne := StringUtil.splitChars_ne_nil ',' (value.data.drop (i + 1))
  simp only [cutAtCommas, e]
  cases hs : StringUtil.splitChars ',' (value.data.drop (i + 1)) with
  | nil => exact absurd hs hne
  | cons seg segs => split <;> simp

/-- C13: when `addAppenders` throws "unknown priority" for a category, the category has no
appender left at the throw, so its appender set differs from the prior one whenever that was
not empty. -/
theorem C13_no_rollback (env : Collaborators) (properties : Properties)
    (allAppenders : AppenderMap) (hierarchy : Hierarchy) (categoryName t : String)
    (hfail : (addAppenders env properties allAppenders hierarchy categoryName).failure =
      some ("unknown priority '" ++ t ++ "' for category '" ++ categoryName ++ "'")) :
    ((addAppenders env properties allAppenders hierarchy categoryName).state
        (categoryOf categoryName)).appenders = [] ∧
      ((hierarchy (categoryOf categoryName)).appenders ≠ [] →
        ((addAppenders env properties allAppenders hierarchy categoryName).state
          (categoryOf categoryName)).appenders ≠
          (hierarchy (categoryOf categoryName)).appenders) := by
  have key : ((addAppenders env properties allAppenders hierarchy categoryName).state
      (categoryOf categoryName)).appenders = [] := by
    rcases addAppenders_cases env properties allAppenders hierarchy categoryName with
      ⟨_, h⟩ | ⟨value, _, _, h⟩ | ⟨value, _, _, h⟩
    · rw [h] at hfail
      have := congrArg String.data (Option.some.inj hfail)
      simp at this
    · rw [h] at hfail
      have := congrArg String.data (Option.some.inj hfail)
      simp at this
    · rw [h, applyTokens_appenders _ _ _ _ _ _ (fun t ht => not_mem_of_mem_cutAtCommas ht)]
      simp [Hierarchy.removeAllAppenders]
  refine ⟨key, fun hne e => hne ?_⟩
  rw [← e, key]

/-- Witness of C13: the root category holds the appender `A`; `rootCategory = WARN,A` throws
"unknown priority" and leaves the root category without appenders. -/
theorem C13_no_rollback_witness :
    ((addAppenders sampleEnv [("rootCategory", "WARN,A")] [] boundHierarchy "rootCategory").state
        (categoryOf "rootCategory")).appenders = [] ∧
      ((boundHierarchy (categoryOf "rootCategory")).appenders ≠ [] →
        ((addAppenders sampleEnv [("rootCategory", "WARN,A")] [] boundHierarchy
          "rootCategory").state (categoryOf "rootCategory")).appenders ≠
          (boundHierarchy (categoryOf "rootCategory")).appenders) :=
  C13_no_rollback sampleEnv [("rootCategory", "WARN,A")] [] boundHierarchy "rootCategory" "A" rfl

/-- C14: every token of a value, re-split at the commas, is one piece; after a successful
`addAppenders` the category has no appender; and no failure of `addAppenders` has a message
that begins with "Appender". -/
theorem C14_never_attaches (env : Collaborators) (properties : Properties)
    (allAppenders : AppenderMap) (hierarchy : Hierarchy) (categoryName : String) :
    (∀ value token, token ∈ cutAtCommas value → StringUtil.split token ',' = [token]) ∧
    (∀ result, addAppenders env properties allAppenders hierarchy categoryName = .ok result →
      (result (categoryOf categoryName)).appenders = []) ∧
    (∀ message,
      (addAppenders env properties allAppenders hierarchy categoryName).failure = some message →
      ¬ "Appender".data <+: message.data) := by
  refine ⟨fun value token ht => StringUtil.split_of_not_mem (not_mem_of_mem_cutAtCommas ht),
    ?_, ?_⟩
  · intro result hok
    rcases addAppenders_cases env properties allAppenders hierarchy categoryName with
      ⟨_, h⟩ | ⟨value, _, _, h⟩ | ⟨value, _, _, h⟩
    · rw [h] at hok
      cases hok
    · rw [h] at hok
      cases hok
    · have := applyTokens_appenders env allAppenders categoryName (categoryOf categoryName)
        (cutAtCommas value) (hierarchy.removeAllAppenders (categoryOf categoryName))
        (fun t ht => not_mem_of_mem_cutAtCommas ht) (categoryOf categoryName)
      rw [← h, hok] at this
      simpa [Outcome.state, Hierarchy.removeAllAppenders] using this
  · intro message hm
    rcases addAppenders_cases env properties allAppenders hierarchy categoryName with
      ⟨_, h⟩ | ⟨value, _, _, h⟩ | ⟨value, _, _, h⟩
    · rw [h] at hm
      have := Option.some.inj hm
      subst this
      simp
    · rw [h] at hm
      have := Option.some.inj hm
      subst this
      simp
    · rw [h] at hm
      obtain ⟨t, rfl⟩ := applyTokens_failure_form env allAppenders categoryName _ _ _
        (fun t ht => not_mem_of_mem_cutAtCommas ht) message hm
      simp

/-- Witness of C14: with `A` in the registry, `rootCategory = WARN,` succeeds from a state in
which the root category holds `A`, and leaves it without appenders. -/
theorem C14_never_attaches_witness :
    addAppenders sampleEnv [("rootCategory", "WARN,")]
        [("A", ⟨.OstreamAppender "A", none⟩)] boundHierarchy "rootCategory" =
        .ok reboundHierarchy ∧
      (reboundHierarchy (categoryOf "rootCategory")).appenders = [] :=
  ⟨rfl, (C14_never_attaches sampleEnv [("rootCategory", "WARN,")]
    [("A", ⟨.OstreamAppender "A", none⟩)] boundHierarchy "rootCategory").2.1
    reboundHierarchy rfl⟩

/-- C16: when the key of the category is in the store, `addAppenders` succeeds exactly when
the value holds a comma and the priority parser accepts every trimmed token of the value; and
on success there is a last token, and the priority of the category is its parse. -/
theorem C16_every_token_is_a_priority (env : Collaborators) (properties : Properties)
    (allAppenders : AppenderMap) (hierarchy : Hierarchy) (categoryName value : String)
    (hkey : StdMap.find properties (tempCatName categoryName) = some value) :
    ((addAppenders env properties allAppenders hierarchy categoryName).failure = none ↔
      ',' ∈ value.data ∧
        ∀ t ∈ cutAtCommas value, (env.getPriorityValue (StringUtil.trim t)).isSome = true) ∧
    (∀ result, addAppenders env properties allAppenders hierarchy categoryName = .ok result →
      ∃ last, (cutAtCommas value).getLast? = some last ∧
        env.getPriorityValue (StringUtil.trim last) =
          some (result (categoryOf categoryName)).priority) := by
  have hfree : ∀ t ∈ cutAtCommas value, ',' ∉ t.data :=
    fun t ht => not_mem_of_mem_cutAtCommas ht
  by_cases hcomma : ',' ∈ value.data
  · have e := addAppenders_eq_applyTokens env properties allAppenders hierarchy categoryName
      value hkey hcomma
    constructor
    · rw [e, applyTokens_success_iff _ _ _ _ _ _ hfree]
      exact ⟨fun h => ⟨hcomma, h⟩, fun h => h.2⟩
    · intro result hok
      obtain ⟨last, hlast⟩ := Option.isSome_iff_exists.mp
        (Option.ne_none_iff_isSome.mp (fun hn => cutAtCommas_ne_nil value hcomma
          (List.getLast?_eq_none_iff.mp hn)))
      rw [e] at hok
      exact ⟨last, hlast, applyTokens_priority env allAppenders categoryName _ _ _ _ hfree last
        hlast hok⟩
  · have e := addAppenders_of_no_comma env properties allAppenders hierarchy categoryName value
      hkey hcomma
    constructor
    · rw [e]
      simp [Outcome.failure, hcomma]
    · intro result hok
      rw [e] at hok
      cases hok

/-- Witness of C16: `rootCategory = WARN, DEBUG ,` succeeds and the root category gets the
priority of `DEBUG`; `rootCategory = WARN,A` does not succeed. -/
theorem C16_every_token_is_a_priority_witness :
    (addAppenders sampleEnv [("rootCategory", "WARN, DEBUG ,")] [] emptyHierarchy
        "rootCategory").failure = none ∧
      (∃ last, (cutAtCommas "WARN, DEBUG ,").getLast? = some last ∧
        sampleEnv.getPriorityValue (StringUtil.trim last) = some 700) ∧
      (addAppenders sampleEnv [("rootCategory", "WARN,A")] [] emptyHierarchy
        "rootCategory").failure ≠ none :=
  ⟨rfl,
    (C16_every_token_is_a_priority sampleEnv [("rootCategory", "WARN, DEBUG ,")] [] emptyHierarchy
      "rootCategory" "WARN, DEBUG ," rfl).2
      (Hierarchy.setPriority (Hierarchy.setPriority
        (Hierarchy.removeAllAppenders emptyHierarchy .getRoot) .getRoot 400) .getRoot 700) rfl,
    fun h => absurd
      (((C16_every_token_is_a_priority sampleEnv [("rootCategory", "WARN,A")] [] emptyHierarchy
        "rootCategory" "WARN,A" rfl).1.mp h).2 "A" (by decide))
      (by decide)⟩

/-- C17: on a store without the key `rootCategory`, `doConfigure` fails; and when the
appenders are instantiated without failure, it throws
"Unable to find category: rootCategory" with every category as it was. -/
theorem C17_missing_rootCategory (env : Collaborators) (properties : Properties)
    (state : ConfigState) (hroot : StdMap.find properties "rootCategory" = none) :
    (doConfigure env properties state).failure ≠ none ∧
      (∀ allAppenders,
        instantiateAllAppenders env properties state.allAppenders = .ok allAppenders →
        doConfigure env properties state =
          .failed "Unable to find category: rootCategory"
            { allAppenders := allAppenders, hierarchy := state.hierarchy }) := by
  have hcats : ∃ names, getCategories properties [] = "rootCategory" :: names := by
    obtain ⟨names, h, _⟩ := getCategories_scan properties ([] ++ ["rootCategory"])
    exact ⟨names, by simpa [getCategories] using h⟩
  obtain ⟨names, hnames⟩ := hcats
  have hadd : ∀ allAppenders, addAppenders env properties allAppenders state.hierarchy
      "rootCategory" = .failed "Unable to find category: rootCategory" state.hierarchy := by
    intro allAppenders
    have ht : tempCatName "rootCategory" = "rootCategory" := rfl
    simp only [addAppenders, ht, hroot]
    rfl
  have hsecond : ∀ allAppenders,
      instantiateAllAppenders env properties state.allAppenders = .ok allAppenders →
      doConfigure env properties state =
        .failed "Unable to find category: rootCategory"
          { allAppenders := allAppenders, hierarchy := state.hierarchy } := by
    intro allAppenders hinst
    simp only [doConfigure, hinst, hnames, addAllAppenders, hadd]
  refine ⟨?_, hsecond⟩
  cases hinst : instantiateAllAppenders env properties state.allAppenders with
  | ok allAppenders =>
    rw [hsecond allAppenders hinst]
    simp [Outcome.failure]
  | failed message allAppenders => simp [doConfigure, hinst, Outcome.failure]

/-- Witness of C17: a store with one category and no `rootCategory`. -/
theorem C17_missing_rootCategory_witness :
    (doConfigure sampleEnv [("category.foo", "WARN,")] ⟨[], boundHierarchy⟩).failure ≠ none ∧
      (∀ allAppenders,
        instantiateAllAppenders sampleEnv [("category.foo", "WARN,")] [] = .ok allAppenders →
        doConfigure sampleEnv [("category.foo", "WARN,")] ⟨[], boundHierarchy⟩ =
          .failed "Unable to find category: rootCategory"
            { allAppenders := allAppenders, hierarchy := boundHierarchy }) :=
  C17_missing_rootCategory sampleEnv [("category.foo", "WARN,")] ⟨[], boundHierarchy⟩ rfl

/-- C18: when `addAppenders` throws a message that begins with "Unable to find category" or
with "Invalid configuration file", every category is what it was before the call. -/
theorem C18_early_failures_change_nothing (env : Collaborators) (properties : Properties)
    (allAppenders : AppenderMap) (hierarchy : Hierarchy) (categoryName message : String)
    (hfail : (addAppenders env properties allAppenders hierarchy categoryName).failure =
      some message)
    (hmsg : "Unable to find category".data <+: message.data ∨
      "Invalid configuration file".data <+: message.data) :
    (addAppenders env properties allAppenders hierarchy categoryName).state = hierarchy := by
  rcases addAppenders_cases env properties allAppenders hierarchy categoryName with
    ⟨_, h⟩ | ⟨value, _, _, h⟩ | ⟨value, _, _, h⟩
  · rw [h]
    rfl
  · rw [h]
    rfl
  · rw [h] at hfail
    obtain ⟨t, rfl⟩ := applyTokens_failure_form env allAppenders categoryName _ _ _
      (fun t ht => not_mem_of_mem_cutAtCommas ht) message hfail
    rcases hmsg with hmsg | hmsg
    · simp at hmsg
    · simp at hmsg

/-- Witness of C18: a missing key and a value without a comma, each from a state in which
every category holds the appender `A`. -/
theorem C18_early_failures_change_nothing_witness :
    (addAppenders sampleEnv [] [] boundHierarchy "foo").state = boundHierarchy ∧
      (addAppenders sampleEnv [("category.foo", "WARN")] [] boundHierarchy "foo").state =
        boundHierarchy :=
  ⟨C18_early_failures_change_nothing sampleEnv [] [] boundHierarchy "foo"
      "Unable to find category: category.foo" rfl (Or.inl (by decide)),
    C18_early_failures_change_nothing sampleEnv [("category.foo", "WARN")] [] boundHierarchy
      "foo" "Invalid configuration file: see category.foo" rfl (Or.inr (by decide))⟩

/-! ## More lemmas on `instantiateAppender` -/

theorem missing_ne_unknown_type (n t m : String) :
    "Missing layout property for appender '" ++ m ++ "'" ≠
      "Appender '" ++ n ++ "' has unknown type '" ++ t ++ "'" := by
  intro h
  have := congrArg String.data h
  simp at this

theorem unknown_layout_ne_unknown_type (n t m l : String) :
    "Unknown layout type '" ++ l ++ "' for appender '" ++ m ++ "'" ≠
      "Appender '" ++ n ++ "' has unknown type '" ++ t ++ "'" := by
  intro h
  have := congrArg String.data h
  simp at this

/-- The function `setLayout` never throws an "unknown type" message of the appender factory. -/
theorem setLayout_ne_unknown_type (env : Collaborators) (p : Properties) (appender : Appender)
    (n m t : String) :
    setLayout env p appender n ≠
      .error ("Appender '" ++ m ++ "' has unknown type '" ++ t ++ "'") := by
  unfold setLayout
  split
  · intro e
    exact missing_ne_unknown_type _ _ _ (Except.error.inj e)
  · simp only []
    split
    · simp
    · split
      · simp
      · split
        · split <;> simp
        · intro e
          exact unknown_layout_ne_unknown_type _ _ _ _ (Except.error.inj e)

/-- Without `WIN32`, the names that stand for an appender kind are the three of the claim. -/
theorem kindNamed_eq_none_iff (env : Collaborators) (segment : String) (hbuild : env.WIN32 = false) :
    kindNamed env segment = none ↔
      segment ≠ "ConsoleAppender" ∧ segment ≠ "FileAppender" ∧ segment ≠ "SyslogAppender" := by
  unfold kindNamed
  by_cases h1 : segment = "ConsoleAppender"
  · simp [h1]
  by_cases h2 : segment = "FileAppender"
  · simp [h2]
  by_cases h3 : segment = "SyslogAppender"
  · simp [h3]
  simp [h1, h2, h3, hbuild]

theorem construct_eq_none_iff (env : Collaborators) (p : Properties)
    (appenderName appenderType : String) :
    construct env p appenderName appenderType = none ↔ kindNamed env appenderType = none := by
  rw [← construct_kind env p appenderName appenderType]
  simp

/-- What `setLayout` can do: return the appender with some layout, or throw one of its two
messages. -/
theorem setLayout_cases (env : Collaborators) (p : Properties) (appender : Appender)
    (n : String) :
    (∃ layout, setLayout env p appender n = .ok { appender with layout := some layout }) ∨
    setLayout env p appender n = .error ("Missing layout property for appender '" ++ n ++ "'") ∨
    ∃ l, setLayout env p appender n =
      .error ("Unknown layout type '" ++ l ++ "' for appender '" ++ n ++ "'") := by
  unfold setLayout
  split
  · exact Or.inr (Or.inl rfl)
  · simp only []
    split
    · exact Or.inl ⟨_, rfl⟩
    · split
      · exact Or.inl ⟨_, rfl⟩
      · split
        · split
          · exact Or.inl ⟨_, rfl⟩
          · exact Or.inl ⟨_, rfl⟩
        · exact Or.inr (Or.inr ⟨_, rfl⟩)

/-- C11: with `appender.n` in the store and a build without `WIN32`, `instantiateAppender`
throws "Appender 'n' has unknown type ..." exactly when the last segment of the value is
none of `ConsoleAppender`, `FileAppender`, `SyslogAppender`; the type in the message is that
segment, and the failure is the same on every store that differs only in layout keys. -/
theorem C11_unknown_type (env : Collaborators) (p : Properties) (n value segment : String)
    (hkey : StdMap.find p ("appender." ++ n) = some value) (hseg : LastSegment value segment)
    (hbuild : env.WIN32 = false) :
    ((∃ t, instantiateAppender env p n =
        .error ("Appender '" ++ n ++ "' has unknown type '" ++ t ++ "'")) ↔
      segment ≠ "ConsoleAppender" ∧ segment ≠ "FileAppender" ∧ segment ≠ "SyslogAppender") ∧
    ((segment ≠ "ConsoleAppender" ∧ segment ≠ "FileAppender" ∧ segment ≠ "SyslogAppender") →
      ∀ q : Properties, (∀ key, ¬ IsLayoutKey n key → StdMap.find p key = StdMap.find q key) →
        instantiateAppender env q n =
          .error ("Appender '" ++ n ++ "' has unknown type '" ++ segment ++ "'")) := by
  have ht := (typeName_eq_iff _ _).mpr hseg
  have hsecond : (segment ≠ "ConsoleAppender" ∧ segment ≠ "FileAppender" ∧
      segment ≠ "SyslogAppender") →
      ∀ q : Properties, (∀ key, ¬ IsLayoutKey n key → StdMap.find p key = StdMap.find q key) →
        instantiateAppender env q n =
          .error ("Appender '" ++ n ++ "' has unknown type '" ++ segment ++ "'") := by
    intro hnot q hagree
    have hq : StdMap.find q ("appender." ++ n) = some value := by
      rw [← hagree _ (not_isLayoutKey_self n), hkey]
    have hc : construct env q n segment = none :=
      (construct_eq_none_iff env q n segment).mpr
        ((kindNamed_eq_none_iff env segment hbuild).mpr hnot)
    unfold instantiateAppender
    simp only [hq, ht, hc]
  refine ⟨⟨?_, fun hnot => ⟨segment, hsecond hnot p (fun _ _ => rfl)⟩⟩, hsecond⟩
  rintro ⟨t, h⟩
  rw [← kindNamed_eq_none_iff env segment hbuild, ← construct_eq_none_iff env p n segment]
  unfold instantiateAppender at h
  simp only [hkey, ht] at h
  cases hc : construct env p n segment with
  | none => rfl
  | some ctor =>
    simp only [hc] at h
    by_cases hr : env.requiresLayout ctor.kind = true
    · simp only [hr, if_true] at h
      exact absurd h (setLayout_ne_unknown_type env p _ n n t)
    · simp [hr] at h

/-- Witness of C11: the match is case-sensitive, `consoleappender` is an unknown type, with or
without a layout key. -/
theorem C11_unknown_type_witness :
    instantiateAppender sampleEnv
        [("appender.A", "org.consoleappender"), ("appender.A.layout", "BasicLayout")] "A" =
      .error "Appender 'A' has unknown type 'consoleappender'" :=
  (C11_unknown_type sampleEnv [("appender.A", "org.consoleappender")] "A" "org.consoleappender"
    "consoleappender" rfl ⟨by decide, Or.inr ⟨"org", rfl⟩⟩ rfl).2
    ⟨by decide, by decide, by decide⟩
    [("appender.A", "org.consoleappender"), ("appender.A.layout", "BasicLayout")]
    (by
      intro key hkey
      by_cases h1 : "appender.A" = key
      · subst h1
        rfl
      · by_cases h2 : "appender.A.layout" = key
        · subst h2
          exact absurd (by decide) hkey
        · simp [StdMap.find, h1, h2])

/-- C12: with `appender.n` naming the file kind and no `appender.n.fileName` key,
`instantiateAppender` constructs the file appender with the file name `foobar`; with the
syslog kind and none of its four keys it constructs the syslog appender with `syslog`,
`localhost`, -1 and -1. In both cases the call returns that appender when the kind takes no
layout, and otherwise does what `setLayout` does on it, so any failure is a layout failure. -/
theorem C12_defaults (env : Collaborators) (p : Properties) (n value : String)
    (hkey : StdMap.find p ("appender." ++ n) = some value) :
    (LastSegment value "FileAppender" →
      StdMap.find p ("appender." ++ n ++ ".fileName") = none →
      instantiateAppender env p n =
        (if env.requiresLayout .FileAppender = true then
          setLayout env p ⟨.FileAppender n "foobar", none⟩ n
        else .ok ⟨.FileAppender n "foobar", none⟩) ∧
      ((∃ layout, instantiateAppender env p n = .ok ⟨.FileAppender n "foobar", layout⟩) ∨
        instantiateAppender env p n =
          .error ("Missing layout property for appender '" ++ n ++ "'") ∨
        ∃ l, instantiateAppender env p n =
          .error ("Unknown layout type '" ++ l ++ "' for appender '" ++ n ++ "'"))) ∧
    (LastSegment value "SyslogAppender" →
      StdMap.find p ("appender." ++ n ++ ".syslogName") = none →
      StdMap.find p ("appender." ++ n ++ ".syslogHost") = none →
      StdMap.find p ("appender." ++ n ++ ".facility") = none →
      StdMap.find p ("appender." ++ n ++ ".portNumber") = none →
      instantiateAppender env p n =
        (if env.requiresLayout .RemoteSyslogAppender = true then
          setLayout env p ⟨.RemoteSyslogAppender n "syslog" "localhost" (-1) (-1), none⟩ n
        else .ok ⟨.RemoteSyslogAppender n "syslog" "localhost" (-1) (-1), none⟩) ∧
      ((∃ layout, instantiateAppender env p n =
          .ok ⟨.RemoteSyslogAppender n "syslog" "localhost" (-1) (-1), layout⟩) ∨
        instantiateAppender env p n =
          .error ("Missing layout property for appender '" ++ n ++ "'") ∨
        ∃ l, instantiateAppender env p n =
          .error ("Unknown layout type '" ++ l ++ "' for appender '" ++ n ++ "'"))) := by
  constructor
  · intro hseg hfile
    have ht := (typeName_eq_iff _ _).mpr hseg
    have hc : construct env p n "FileAppender" = some (.FileAppender n "foobar") := by
      simp [construct, Properties.getString, hfile]
    have e : instantiateAppender env p n =
        (if env.requiresLayout .FileAppender = true then
          setLayout env p ⟨.FileAppender n "foobar", none⟩ n
        else .ok ⟨.FileAppender n "foobar", none⟩) := by
      unfold instantiateAppender
      simp only [hkey, ht, hc, AppenderCtor.kind]
    refine ⟨e, ?_⟩
    rw [e]
    by_cases hr : env.requiresLayout .FileAppender = true
    · simp only [hr, if_true]
      rcases setLayout_cases env p ⟨.FileAppender n "foobar", none⟩ n with ⟨l, h⟩ | h | h
      · exact Or.inl ⟨some l, h⟩
      · exact Or.inr (Or.inl h)
      · exact Or.inr (Or.inr h)
    · simp only [hr]
      exact Or.inl ⟨none, rfl⟩
  · intro hseg h1 h2 h3 h4
    have ht := (typeName_eq_iff _ _).mpr hseg
    have hc : construct env p n "SyslogAppender" =
        some (.RemoteSyslogAppender n "syslog" "localhost" (-1) (-1)) := by
      simp [construct, Properties.getString, Properties.getInt, h1, h2, h3, h4]
    have e : instantiateAppender env p n =
        (if env.requiresLayout .RemoteSyslogAppender = true then
          setLayout env p ⟨.RemoteSyslogAppender n "syslog" "localhost" (-1) (-1), none⟩ n
        else .ok ⟨.RemoteSyslogAppender n "syslog" "localhost" (-1) (-1), none⟩) := by
      unfold instantiateAppender
      simp only [hkey, ht, hc, AppenderCtor.kind]
    refine ⟨e, ?_⟩
    rw [e]
    by_cases hr : env.requiresLayout .RemoteSyslogAppender = true
    · simp only [hr, if_true]
      rcases setLayout_cases env p ⟨.RemoteSyslogAppender n "syslog" "localhost" (-1) (-1), none⟩
        n with ⟨l, h⟩ | h | h
      · exact Or.inl ⟨some l, h⟩
      · exact Or.inr (Or.inl h)
      · exact Or.inr (Or.inr h)
    · simp only [hr]
      exact Or.inl ⟨none, rfl⟩

/-- Witness of C12: a file appender with a layout and no file name, and a syslog appender
with no sub-property at all. -/
theorem C12_defaults_witness :
    instantiateAppender sampleEnv
        [("appender.F", "FileAppender"), ("appender.F.layout", "BasicLayout")] "F" =
      .ok ⟨.FileAppender "F" "foobar", some .BasicLayout⟩ ∧
    instantiateAppender sampleEnv [("appender.S", "org.SyslogAppender")] "S" =
      .ok ⟨.RemoteSyslogAppender "S" "syslog" "localhost" (-1) (-1), none⟩ :=
  ⟨((C12_defaults sampleEnv
      [("appender.F", "FileAppender"), ("appender.F.layout", "BasicLayout")] "F" "FileAppender"
      rfl).1 ⟨by decide, Or.inl rfl⟩ rfl).1.trans rfl,
    ((C12_defaults sampleEnv [("appender.S", "org.SyslogAppender")] "S" "org.SyslogAppender"
      rfl).2 ⟨by decide, Or.inr ⟨"org", rfl⟩⟩ rfl rfl rfl rfl).1.trans rfl⟩

/-! ## Lemmas on the round trip between `getCategories` and `addAppenders` -/

theorem getCategories_scan_eq (entries : List (String × String)) (catlist : List String) :
    getCategories.scan entries catlist =
      catlist ++ entries.filterMap (fun e => derivedName e.1) := by
  induction entries generalizing catlist with
  | nil => simp [getCategories.scan]
  | cons e rest ih =>
    obtain ⟨key, v⟩ := e
    cases hf : StdString.findStr key "category." with
    | none => simp [getCategories.scan, derivedName, hf, ih]
    | some length => simp [getCategories.scan, derivedName, hf, ih]

theorem getCategories_eq (properties : Properties) (catlist : List String) :
    getCategories properties catlist =
      catlist ++ "rootCategory" :: properties.filterMap (fun e => derivedName e.1) := by
  simp [getCategories, getCategories_scan_eq]

theorem StdMap.find_of_mem {V : Type} (m : StdMap V) (key : String) (value : V)
    (h : (key, value) ∈ m) : ∃ v, StdMap.find m key = some v := by
  induction m with
  | nil => cases h
  | cons e rest ih =>
    obtain ⟨k, v⟩ := e
    by_cases hk : k = key
    · exact ⟨v, by simp [StdMap.find, hk]⟩
    · have : (key, value) ∈ rest := by
        rcases List.mem_cons.mp h with h1 | h1
        · exact absurd (congrArg Prod.fst h1).symm hk
        · exact h1
      obtain ⟨w, hw⟩ := ih this
      exact ⟨w, by simp [StdMap.find, hk, hw]⟩

/-- A key in which `category.` first occurs at position 0 is `category.` followed by the name
derived from it. -/
theorem key_eq_of_findStr_zero (key : String)
    (h : StdString.findStr key "category." = some 0) :
    key = "category." ++ StdString.substrFrom key (0 + "category.".length) := by
  obtain ⟨hsplit, _⟩ := StdString.findStrIn_some h
  apply String.ext
  simp only [String.data_append, StdString.substrFrom]
  simpa using hsplit

theorem findStr_zero_of_prefix (key : String) (h : "category.".data <+: key.data) :
    StdString.findStr key "category." = some 0 := by
  obtain ⟨rest, hrest⟩ := h
  unfold StdString.findStr
  rw [← hrest]
  have : "category.".data ++ rest = 'c' :: ("ategory.".data ++ rest) := rfl
  rw [this]
  unfold StdString.findStrIn
  rw [if_pos]
  rw [← this, List.isPrefixOf_iff_prefix]
  exact List.prefix_append _ _

/-- When the key that `addAppenders` reads is in the store, no failure of `addAppenders`
begins with "Unable to find category". -/
theorem addAppenders_not_unable (env : Collaborators) (properties : Properties)
    (allAppenders : AppenderMap) (hierarchy : Hierarchy) (categoryName value message : String)
    (hkey : StdMap.find properties (tempCatName categoryName) = some value)
    (hm : (addAppenders env properties allAppenders hierarchy categoryName).failure =
      some message) :
    ¬ "Unable to find category".data <+: message.data := by
  rcases addAppenders_cases env properties allAppenders hierarchy categoryName with
    ⟨hnone, _⟩ | ⟨_, _, _, h⟩ | ⟨_, _, _, h⟩
  · rw [hkey] at hnone
    cases hnone
  · rw [h] at hm
    have := Option.some.inj hm
    subst this
    simp
  · rw [h] at hm
    obtain ⟨t, rfl⟩ := applyTokens_failure_form env allAppenders categoryName _ _ _
      (fun t ht => not_mem_of_mem_cutAtCommas ht) message hm
    simp

/-- C19, the claim as stated fails: the key `category.rootCategory` begins with `category.`,
the name derived from it is `rootCategory`, and `addAppenders` on that name reads the key
`rootCategory`, not the key the name came from; on a store without `rootCategory` it throws
"Unable to find category: rootCategory". -/
theorem C19_counterexample :
    "category.".data <+: "category.rootCategory".data ∧
      getCategories [("category.rootCategory", "WARN,")] [] = ["rootCategory", "rootCategory"] ∧
      derivedName "category.rootCategory" = some "rootCategory" ∧
      tempCatName "rootCategory" ≠ "category.rootCategory" ∧
      (addAppenders sampleEnv [("category.rootCategory", "WARN,")] [] emptyHierarchy
        "rootCategory").failure = some "Unable to find category: rootCategory" :=
  ⟨by decide, rfl, rfl, by decide, rfl⟩

/-- C19 (amended): for every key of the store that begins with `category.` and is not
`category.rootCategory`, the name derived from it is in the list of `getCategories`, the key
`addAppenders` reads for that name is `category.` followed by the name and equals the key,
and no failure of `addAppenders` on that name begins with "Unable to find category". For a
name of the list, the failure "Unable to find category" arises only when the name is
`rootCategory` or is derived from a key in which `category.` first occurs at a position other
than 0. -/
theorem C19_round_trip (env : Collaborators) (properties : Properties)
    (allAppenders : AppenderMap) (hierarchy : Hierarchy) :
    (∀ e ∈ properties, "category.".data <+: e.1.data → e.1 ≠ "category.rootCategory" →
      ∃ name, derivedName e.1 = some name ∧ name ∈ getCategories properties [] ∧
        tempCatName name = "category." ++ name ∧ "category." ++ name = e.1 ∧
        ∀ message,
          (addAppenders env properties allAppenders hierarchy name).failure = some message →
          ¬ "Unable to find category".data <+: message.data) ∧
    (∀ name ∈ getCategories properties [], ∀ message,
      (addAppenders env properties allAppenders hierarchy name).failure = some message →
      "Unable to find category".data <+: message.data →
      name = "rootCategory" ∨
        ∃ e ∈ properties, ∃ i, StdString.findStr e.1 "category." = some i ∧ i ≠ 0 ∧
          name = StdString.substrFrom e.1 (i + "category.".length)) := by
  have hround : ∀ e ∈ properties, StdString.findStr e.1 "category." = some 0 →
      StdString.substrFrom e.1 (0 + "category.".length) ≠ "rootCategory" →
      ∀ message,
        (addAppenders env properties allAppenders hierarchy
          (StdString.substrFrom e.1 (0 + "category.".length))).failure = some message →
        ¬ "Unable to find category".data <+: message.data := by
    intro e he hf hne message hm
    have hk := key_eq_of_findStr_zero e.1 hf
    have ht : tempCatName (StdString.substrFrom e.1 (0 + "category.".length)) = e.1 := by
      unfold tempCatName
      rw [if_neg hne]
      exact hk.symm
    obtain ⟨v, hv⟩ := StdMap.find_of_mem properties e.1 e.2 he
    rw [← ht] at hv
    exact addAppenders_not_unable env properties allAppenders hierarchy _ v message hv hm
  constructor
  · intro e he hpre hnot
    have hf := findStr_zero_of_prefix e.1 hpre
    have hk := key_eq_of_findStr_zero e.1 hf
    have hne : StdString.substrFrom e.1 (0 + "category.".length) ≠ "rootCategory" := by
      intro h
      rw [h] at hk
      exact hnot hk
    have hd : derivedName e.1 = some (StdString.substrFrom e.1 (0 + "category.".length)) := by
      simp [derivedName, hf]
    refine ⟨_, hd, ?_, ?_, hk.symm, hround e he hf hne⟩
    · rw [getCategories_eq]
      simp only [List.nil_append, List.mem_cons, List.mem_filterMap]
      exact Or.inr ⟨e, he, hd⟩
    · unfold tempCatName
      rw [if_neg hne]
  · intro name hname message hm hunable
    rw [getCategories_eq] at hname
    simp only [List.nil_append, List.mem_cons, List.mem_filterMap] at hname
    rcases hname with hroot | ⟨e, he, hd⟩
    · exact Or.inl hroot
    · by_cases hr : name = "rootCategory"
      · exact Or.inl hr
      · right
        simp only [derivedName, Option.map_eq_some'] at hd
        obtain ⟨i, hi, hn⟩ := hd
        refine ⟨e, he, i, hi, ?_, hn.symm⟩
        intro hi0
        subst hi0
        subst hn
        exact hround e he hi hr message hm hunable

/-- Witness of C19: the key `category.foo` gives the name `foo`, which `addAppenders` reads
back under `category.foo`. -/
theorem C19_round_trip_witness :
    ∃ name, derivedName "category.foo" = some name ∧
      name ∈ getCategories [("category.foo", "WARN")] [] ∧
      tempCatName name = "category." ++ name ∧ "category." ++ name = "category.foo" ∧
      ∀ message,
        (addAppenders sampleEnv [("category.foo", "WARN")] [] emptyHierarchy name).failure =
          some message →
        ¬ "Unable to find category".data <+: message.data :=
  (C19_round_trip sampleEnv [("category.foo", "WARN")] [] emptyHierarchy).1
    ("category.foo", "WARN") (by simp) (by decide) (by decide)

/-! ## Lemmas on the key order and on the appender scan -/

namespace StdString

theorem char_eq_of_toNat {a b : Char} (h1 : ¬ a.toNat < b.toNat) (h2 : ¬ b.toNat < a.toNat) :
    a = b := by
  have : a.toNat = b.toNat := by omega
  rw [← Char.ofNat_toNat a, ← Char.ofNat_toNat b, this]

theorem ltChars_irrefl (a : List Char) : ltChars a a = false := by
  induction a with
  | nil => rfl
  | cons c cs ih => simp [ltChars, ih]

theorem ltChars_trans {a b c : List Char} (h1 : ltChars a b = true) (h2 : ltChars b c = true) :
    ltChars a c = true := by
  induction a generalizing b c with
  | nil =>
    cases c with
    | nil => cases b <;> simp [ltChars] at h2
    | cons z zs => rfl
  | cons x xs ih =>
    cases b with
    | nil => simp [ltChars] at h1
    | cons y ys =>
      cases c with
      | nil => simp [ltChars] at h2
      | cons z zs =>
        simp only [ltChars] at h1 h2 ⊢
        by_cases hxy : x.toNat < y.toNat
        · by_cases hyz : y.toNat < z.toNat
          · have : x.toNat < z.toNat := by omega
            simp [this]
          · by_cases hzy : z.toNat < y.toNat
            · simp [hyz, hzy] at h2
            · have : x.toNat < z.toNat := by omega
              simp [this]
        · by_cases hyx : y.toNat < x.toNat
          · simp [hxy, hyx] at h1
          · simp only [hxy, hyx, if_false] at h1
            by_cases hyz : y.toNat < z.toNat
            · have : x.toNat < z.toNat := by omega
              simp [this]
            · by_cases hzy : z.toNat < y.toNat
              · simp [hyz, hzy] at h2
              · simp only [hyz, hzy, if_false] at h2
                have e1 : ¬ x.toNat < z.toNat := by omega
                have e2 : ¬ z.toNat < x.toNat := by omega
                simp only [e1, e2, if_false]
                exact ih h1 h2

theorem ltChars_append_self (p n : List Char) : ltChars (p ++ n) p = false := by
  induction p with
  | nil => cases n <;> rfl
  | cons c cs ih => simp [ltChars, ih]

theorem prefix_of_between {p j n : List Char} (h1 : ltChars j p = false)
    (h2 : ltChars j (p ++ n) = true) : p <+: j := by
  induction p generalizing j with
  | nil => exact List.nil_prefix
  | cons c cs ih =>
    cases j with
    | nil => simp [ltChars] at h1
    | cons d ds =>
      simp only [ltChars, List.cons_append] at h1 h2
      by_cases hdc : d.toNat < c.toNat
      · simp [hdc] at h1
      · by_cases hcd : c.toNat < d.toNat
        · simp [hdc, hcd] at h2
        · simp only [hdc, hcd, if_false] at h1 h2
          have e : d = c := char_eq_of_toNat hdc hcd
          subst e
          exact (List.prefix_cons_inj d).mpr (ih h1 h2)

end StdString
theorem sizeToBool_findCharIn (c : Char) (s : List Char) :
    StdString.sizeToBool (StdString.findCharIn c s) = false ↔ s.head? = some c := by
  cases s with
  | nil => simp [StdString.findCharIn, StdString.sizeToBool]
  | cons d ds =>
    by_cases h : d = c
    · simp [StdString.findCharIn, StdString.sizeToBool, h]
    · cases hf : StdString.findCharIn c ds <;>
        simp [StdString.findCharIn, StdString.sizeToBool, h, hf]

/-- One round of the appender scan on a key that begins with `appender.`: the rest of the
key, `m`, is the appender name. -/
theorem instantiateLoop_step (env : Collaborators) (properties : Properties) (m v : String)
    (rest : List (String × String)) (currentAppender : String) (allAppenders : AppenderMap) :
    instantiateLoop env properties (("appender." ++ m, v) :: rest) currentAppender allAppenders =
      if m = currentAppender then
        instantiateLoop env properties rest currentAppender allAppenders
      else if m.data.head? = some (Char.ofNat 1) then
        match instantiateAppender env properties m with
        | .error message => .failed message allAppenders
        | .ok appender =>
          instantiateLoop env properties rest m (StdMap.set allAppenders m appender)
      else .failed ("partial appender definition : " ++ ("appender." ++ m)) allAppenders := by
  have hfind : StdString.findCharIn '.' ("appender." ++ m).data = some 8 := by
    simp [StdString.findCharIn]
  have hsub : StdString.substr ("appender." ++ m) 0 8 = "appender" := by
    apply String.ext
    simp [StdString.substr]
  have hname : StdString.substrFrom ("appender." ++ m) (8 + 1) = m := by
    apply String.ext
    simp [StdString.substrFrom]
  have hchar : StdString.boolToChar (decide ('.'.toNat ≠ StdString.npos)) = Char.ofNat 1 := by
    decide
  rw [instantiateLoop]
  simp only [hfind, hsub, hname, hchar, StdString.find, ne_eq, not_true_eq_false, if_false]
  by_cases h1 : m = currentAppender
  · simp only [h1, if_true]
  · simp only [h1, if_false]
    by_cases h2 : m.data.head? = some (Char.ofNat 1)
    · have := (sizeToBool_findCharIn (Char.ofNat 1) m.data).mpr h2
      simp only [this, h2, if_true, Bool.false_eq_true, if_false]
    · have : StdString.sizeToBool (StdString.findCharIn (Char.ofNat 1) m.data) = true := by
        cases hb : StdString.sizeToBool (StdString.findCharIn (Char.ofNat 1) m.data) with
        | true => rfl
        | false => exact absurd ((sizeToBool_findCharIn _ _).mp hb) h2
      simp only [this, h2, if_true, if_false]

theorem eq_appender_append (key : String) (h : "appender.".data <+: key.data) :
    ∃ m : String, key = "appender." ++ m := by
  obtain ⟨rest, hrest⟩ := h
  exact ⟨⟨rest⟩, String.ext (by simp [String.data_append, ← hrest])⟩

/-- The scan fails once it is bound to reach a key whose name is not the current one and
does not begin with the character of code 1. -/
theorem instantiateLoop_fails (env : Collaborators) (properties : Properties)
    (front : List (String × String)) (n v : String) (back : List (String × String))
    (hfront : ∀ e ∈ front, "appender.".data <+: e.1.data ∧ e.1 ≠ "appender." ++ n)
    (hguard : n.data.head? ≠ some (Char.ofNat 1)) (currentAppender : String)
    (allAppenders : AppenderMap) (hcur : n ≠ currentAppender) :
    (instantiateLoop env properties (front ++ ("appender." ++ n, v) :: back) currentAppender
      allAppenders).failure ≠ none := by
  induction front generalizing currentAppender allAppenders with
  | nil =>
    rw [List.nil_append, instantiateLoop_step, if_neg hcur, if_neg hguard]
    simp [Outcome.failure]
  | cons e front ih =>
    obtain ⟨key, w⟩ := e
    obtain ⟨hpre, hne⟩ := hfront (key, w) (by simp)
    obtain ⟨m, rfl⟩ := eq_appender_append key hpre
    have hmn : n ≠ m := fun e => hne (by rw [e])
    have hrest : ∀ e ∈ front, "appender.".data <+: e.1.data ∧ e.1 ≠ "appender." ++ n :=
      fun e he => hfront e (by simp [he])
    rw [List.cons_append, instantiateLoop_step]
    by_cases h1 : m = currentAppender
    · rw [if_pos h1]
      exact ih hrest _ _ hcur
    · rw [if_neg h1]
      by_cases h2 : m.data.head? = some (Char.ofNat 1)
      · rw [if_pos h2]
        cases instantiateAppender env properties m with
        | error message => simp [Outcome.failure]
        | ok appender => exact ih hrest _ _ hmn
      · rw [if_neg h2]
        simp [Outcome.failure]

/-- The scan skips the key `appender.` while no appender has been seen. -/
theorem instantiateLoop_skip (env : Collaborators) (properties : Properties)
    (front rest : List (String × String)) (allAppenders : AppenderMap)
    (hfront : ∀ e ∈ front, e.1 = "appender.") :
    instantiateLoop env properties (front ++ rest) "" allAppenders =
      instantiateLoop env properties rest "" allAppenders := by
  induction front with
  | nil => rfl
  | cons e front ih =>
    obtain ⟨key, w⟩ := e
    have hk : key = "appender." ++ "" := hfront (key, w) (by simp)
    subst hk
    rw [List.cons_append, instantiateLoop_step, if_pos rfl]
    exact ih (fun e he => hfront e (by simp [he]))

/-- On an ordered store, `lower_bound` keeps an entry whose key is not below the bound, and
every entry it keeps before that one is not below the bound either. -/
theorem lower_bound_split {V : Type} (pre : StdMap V) (k : String) (v : V) (post : StdMap V)
    (bound : String)
    (hord : List.Pairwise (fun a b : String × V => StdString.lt a.1 b.1 = true)
      (pre ++ (k, v) :: post))
    (hk : StdString.lt k bound = false) :
    ∃ front, StdMap.lower_bound (pre ++ (k, v) :: post) bound = front ++ (k, v) :: post ∧
      ∀ e ∈ front, e ∈ pre ∧ StdString.lt e.1 bound = false := by
  induction pre with
  | nil => exact ⟨[], by simp [StdMap.lower_bound, hk]⟩
  | cons e pre ih =>
    obtain ⟨j, w⟩ := e
    rw [List.cons_append, List.pairwise_cons] at hord
    by_cases hj : StdString.lt j bound = true
    · obtain ⟨front, h1, h2⟩ := ih hord.2
      refine ⟨front, ?_, fun e he => ⟨by simp [(h2 e he).1], (h2 e he).2⟩⟩
      simp only [List.cons_append, StdMap.lower_bound, hj, if_true]
      exact h1
    · have hj2 : StdString.lt j bound = false := by simpa using hj
      refine ⟨(j, w) :: pre, by simp [StdMap.lower_bound, hj2], ?_⟩
      intro e he
      refine ⟨he, ?_⟩
      rcases List.mem_cons.mp he with rfl | he2
      · exact hj2
      · have hlt : StdString.lt j e.1 = true := hord.1 e (by simp [he2])
        cases hb : StdString.lt e.1 bound with
        | false => rfl
        | true =>
          have := StdString.ltChars_trans hlt hb
          exact absurd this (by simpa [StdString.lt] using hj)

theorem pairwise_of_ordered {V : Type} (m : StdMap V) (h : StdMap.Ordered m) :
    List.Pairwise (fun a b : String × V => StdString.lt a.1 b.1 = true) m := by
  haveI : IsTrans (String × V) (fun a b => StdString.lt a.1 b.1 = true) :=
    ⟨fun _ _ _ h1 h2 => StdString.ltChars_trans h1 h2⟩
  exact List.chain'_iff_pairwise.mp h

/-- The entries the scan visits before an appender key of an ordered store: each begins
with `appender.` and is below that key. -/
theorem scan_front (properties : Properties) (n v : String)
    (hord : StdMap.Ordered properties) (hmem : ("appender." ++ n, v) ∈ properties) :
    ∃ front back, StdMap.lower_bound properties "appender." =
        front ++ ("appender." ++ n, v) :: back ∧
      ∀ e ∈ front, e ∈ properties ∧ "appender.".data <+: e.1.data ∧
        StdString.lt e.1 ("appender." ++ n) = true := by
  obtain ⟨pre, post, hsplit⟩ := List.append_of_mem hmem
  have hpw := pairwise_of_ordered properties hord
  rw [hsplit] at hpw
  have hk : StdString.lt ("appender." ++ n) "appender." = false := by
    simp only [StdString.lt, String.data_append]
    exact StdString.ltChars_append_self _ _
  obtain ⟨front, h1, h2⟩ := lower_bound_split pre _ v post "appender." hpw hk
  refine ⟨front, post, by rw [hsplit]; exact h1, ?_⟩
  intro e he
  obtain ⟨hpre, hge⟩ := h2 e he
  have hlt : StdString.lt e.1 ("appender." ++ n) = true :=
    (List.pairwise_append.mp hpw).2.2 e hpre ("appender." ++ n, v) (List.mem_cons_self _ _)
  refine ⟨by rw [hsplit]; simp [hpre], ?_, hlt⟩
  simp only [StdString.lt, String.data_append] at hlt hge
  exact StdString.prefix_of_between hge hlt

/-- C15: on an ordered store with a key `appender.` followed by a non-empty name `n` that
does not begin with the character of code 1, `instantiateAllAppenders` fails; and when no key
begins with `appender.` followed by that character and the key of `n` is the first of its
sort in key order, the failure is "partial appender definition : " followed by the key, with
the registry as it was. -/
theorem C15_ordinary_names_are_rejected (env : Collaborators) (properties : Properties)
    (allAppenders : AppenderMap) (n v : String) (hord : StdMap.Ordered properties)
    (hmem : ("appender." ++ n, v) ∈ properties) (hne : n ≠ "")
    (hguard : n.data.head? ≠ some (Char.ofNat 1)) :
    (instantiateAllAppenders env properties allAppenders).failure ≠ none ∧
    ((∀ e ∈ properties, ¬ "appender.\x01".data <+: e.1.data) →
      (∀ e ∈ properties, ∀ m : String, e.1 = "appender." ++ m → m ≠ "" →
        m.data.head? ≠ some (Char.ofNat 1) →
        StdString.lt e.1 ("appender." ++ n) = false) →
      instantiateAllAppenders env properties allAppenders =
        .failed ("partial appender definition : " ++ ("appender." ++ n)) allAppenders) := by
  obtain ⟨front, back, hlb, hfront⟩ := scan_front properties n v hord hmem
  have hirr : ∀ e ∈ front, e.1 ≠ "appender." ++ n := by
    intro e he heq
    have := (hfront e he).2.2
    rw [heq] at this
    simp only [StdString.lt, StdString.ltChars_irrefl] at this
    cases this
  constructor
  · unfold instantiateAllAppenders
    rw [hlb]
    exact instantiateLoop_fails env properties front n v back
      (fun e he => ⟨(hfront e he).2.1, hirr e he⟩) hguard "" allAppenders hne
  · intro hno hfirst
    have hempty : ∀ e ∈ front, e.1 = "appender." := by
      intro e he
      obtain ⟨hin, hpre, hlt⟩ := hfront e he
      obtain ⟨m, hm⟩ := eq_appender_append e.1 hpre
      by_cases hm0 : m = ""
      · rw [hm, hm0]
        rfl
      · exfalso
        by_cases hm1 : m.data.head? = some (Char.ofNat 1)
        · apply hno e hin
          rw [hm]
          cases hd : m.data with
          | nil => simp [hd] at hm1
          | cons c cs =>
            simp only [hd, List.head?_cons, Option.some.injEq] at hm1
            subst hm1
            simp only [String.data_append, hd]
            exact ⟨cs, by simp⟩
        · have := hfirst e hin m hm hm0 hm1
          rw [hlt] at this
          cases this
    unfold instantiateAllAppenders
    rw [hlb, instantiateLoop_skip env properties front _ allAppenders hempty,
      instantiateLoop_step, if_neg hne, if_neg hguard]

/-- Witness of C15: the store has the key `appender.` and the appenders `A` and `B`; the scan
skips the first and throws at `appender.A`. -/
theorem C15_ordinary_names_are_rejected_witness :
    instantiateAllAppenders sampleEnv
        [("appender.", "x"), ("appender.A", "ConsoleAppender"), ("appender.B", "FileAppender"),
          ("rootCategory", "WARN,A")] [] =
      .failed "partial appender definition : appender.A" [] :=
  (C15_ordinary_names_are_rejected sampleEnv
    [("appender.", "x"), ("appender.A", "ConsoleAppender"), ("appender.B", "FileAppender"),
      ("rootCategory", "WARN,A")] [] "A" "ConsoleAppender"
    (by
      unfold StdMap.Ordered
      simp only [List.chain'_cons, List.chain'_singleton, and_true]
      decide)
    (by decide) (by decide) (by decide)).2 (by decide)
    (by
      intro e he m hm hm0 _
      simp only [List.mem_cons, List.mem_singleton, List.not_mem_nil, or_false] at he
      rcases he with rfl | rfl | rfl | rfl
      · exfalso
        apply hm0
        have := congrArg String.data hm
        simp only [String.data_append] at this
        exact String.ext (List.self_eq_append_right.mp this)
      · rfl
      · rfl
      · rfl)

end log4cpp
